import Mathlib

/-!
APK Editor Studio: a verification development.

A shallow embedding of the parts of the application that its specification
makes claims about:

* `tools/java.cpp`            (`Java::version`),
* `windows/optionsdialog.cpp` (`OptionsDialog::initialize`, `OptionsDialog::load`,
  `OptionsDialog::save`, the handlers of the toolbar lists),
* `apk/titleitemsmodel.cpp`   (`TitleItemsModel`),
* `windows/mainwindow.cpp`    (`MainWindow::closeEvent`, `MainWindow::saveSettings`,
  `MainWindow::setActionsEnabled`, `MainWindow::updateWindowForProject`,
  `MainWindow::updateRecentMenu`).

Strings are lists of characters, null pointers are `none`, an out-of-range
container access or a null dereference makes the enclosing function return
`none`, and calls into the surrounding framework (signals, settings setters,
message boxes, file-system reads) are recorded in explicit traces.
-/

namespace ApkEditorStudio

/-! ## Strings -/

/-- A `QString`, as its list of characters.  The null and the empty string are
both `[]` (they compare equal in the source language as well). -/
abbrev QString := List Char

/-! ## Loops over indices -/

/-- The loop `for (int i = 0; i < n; ++i)` whose body reads the element `i` of a
list and updates a state. -/
def forIndices {α β : Type} (n : Nat) (l : List α) (body : β → α → β) (init : β) : β :=
  (List.range n).foldl
    (fun state i =>
      match l.get? i with
      | some x => body state x
      | none => state)
    init

/-- The loop `for (int i = 0; i < list.count(); ++i)` over the elements of a
list, by index. -/
def forEachIndex {α β : Type} (l : List α) (body : β → α → β) (init : β) : β :=
  forIndices l.length l body init

/-! ## `tools/java.cpp` -/

namespace Java

/-- The value returned by `startSync`: the success flag of the process run and
the text it produced. -/
structure Result where
  success : Bool
  value : QString
  deriving DecidableEq, Repr

/-- The literal text `version "` that opens the pattern `version "(.+)"`. -/
def versionLiteral : QString := "version \"".toList

/-- The dot metacharacter matches every character but the line feed. -/
def dotMatches (c : Char) : Bool := c != '\n'

/-- Matching a literal at the start of the subject: the rest of the subject
after the literal, or `none` when the subject does not start with it. -/
def matchLiteral : QString → QString → Option QString
  | [], s => some s
  | _ :: _, [] => none
  | l :: ls, c :: cs => if l = c then matchLiteral ls cs else none

/-- Backtracking of the greedy group: with `k` characters taken by `.+`, the
closing quote must come next; otherwise one character is given back.  The
group never matches the empty text. -/
def backtrack (rest : QString) : Nat → Option QString
  | 0 => none
  | k + 1 =>
    if rest.get? (k + 1) = some '"' then some (rest.take (k + 1))
    else backtrack rest k

/-- The part `(.+)"` of the pattern, matched at the start of `rest`: `.+` first
takes the longest run of characters the dot matches, then backtracks.  The
result is the text of capture group 1. -/
def matchGroup (rest : QString) : Option QString :=
  backtrack rest (rest.takeWhile dotMatches).length

/-- The whole pattern `version "(.+)"` matched at the start of the subject. -/
def matchAt (s : QString) : Option QString :=
  (matchLiteral versionLiteral s).bind matchGroup

/-- The search of `QRegularExpression::match`: the pattern is tried at every
offset of the subject from left to right, and the first offset where it
matches wins. -/
def regexMatch : QString → Option QString
  | [] => matchAt []
  | c :: cs =>
    match matchAt (c :: cs) with
    | some cap => some cap
    | none => regexMatch cs

/-- The text of capture group 1 (`captured(1)`): the null string when there
is no match. -/
def captured1 (m : Option QString) : QString := m.getD []

/-- The function `Java::version`, applied to the result of the synchronous run of
`java -version`. -/
def version (result : Result) : QString :=
  if !result.success then []
  else captured1 (regexMatch result.value)

/-- The subject contains a match of `version "(.+)"`: an occurrence of
`version "`, then at least one character, none of them a line break, then a
closing `"`. -/
def HasVersionMatch (s : QString) : Prop :=
  ∃ pre cap post : QString,
    s = pre ++ versionLiteral ++ cap ++ '"' :: post ∧ cap ≠ [] ∧ ∀ c ∈ cap, c ≠ '\n'

end Java

/-! ## Framework types used by the options dialog -/

/-- An icon or pixmap, identified by the name of its resource. -/
abbrev QIcon := QString

/-- A `QAction`, as far as the dialog looks at it: its icon and its text. -/
structure QAction where
  icon : QIcon
  text : QString
  deriving DecidableEq, Repr

/-- A `QMap<QString, QAction *>`: its entries in iteration order.  A stored
pointer may be null (`none`). -/
abbrev ActionMap := List (QString × Option QAction)

/-- The call `QMap::value(key)`: the stored pointer, and the default-constructed
value, a null pointer, when the key is absent. -/
def ActionMap.value (m : ActionMap) (key : QString) : Option QAction :=
  match m.find? (fun e => e.1 == key) with
  | some e => e.2
  | none => none

/-- The call `QMap::remove(key)`. -/
def ActionMap.remove (m : ActionMap) (key : QString) : ActionMap :=
  m.filter (fun e => e.1 != key)

/-- A `QCheckBox` or a checkable `QGroupBox`: its checked state. -/
structure QCheckBox where
  checked : Bool
  deriving DecidableEq, Repr

def QCheckBox.setChecked (_ : QCheckBox) (b : Bool) : QCheckBox := ⟨b⟩

def QCheckBox.isChecked (c : QCheckBox) : Bool := c.checked

/-- A `QSpinBox`: its range and its value. -/
structure QSpinBox where
  minimum : Int
  maximum : Int
  value : Int
  deriving DecidableEq, Repr

/-- The call `QSpinBox::setValue`: the value is bound to the range of the
spin box, first from below and then from above. -/
def QSpinBox.setValue (sb : QSpinBox) (v : Int) : QSpinBox :=
  { sb with value := min sb.maximum (max sb.minimum v) }

/-- An entry of a combo box: icon, text and user data. -/
structure ComboItem where
  icon : QIcon
  text : QString
  userData : QString
  deriving DecidableEq, Repr

/-- A non-editable `QComboBox`: its entries and the current index (`-1` when
there is no current entry). -/
structure QComboBox where
  items : List ComboItem
  currentIndex : Int
  deriving DecidableEq, Repr

def QComboBox.clear (_ : QComboBox) : QComboBox := ⟨[], -1⟩

def QComboBox.count (c : QComboBox) : Int := c.items.length

/-- The call `QComboBox::addItem`: the first entry of an empty combo box becomes
current. -/
def QComboBox.addItem (c : QComboBox) (icon : QIcon) (text userData : QString) : QComboBox :=
  { items := c.items ++ [⟨icon, text, userData⟩],
    currentIndex := if c.items.isEmpty then 0 else c.currentIndex }

def QComboBox.setCurrentIndex (c : QComboBox) (i : Int) : QComboBox :=
  { c with currentIndex := if 0 ≤ i ∧ i < c.count then i else -1 }

/-- The call `QComboBox::setCurrentText` on a non-editable combo box: the first
entry with this text becomes current, and nothing happens when there is none. -/
def QComboBox.setCurrentText (c : QComboBox) (text : QString) : QComboBox :=
  match c.items.findIdx? (fun it => it.text == text) with
  | some i => c.setCurrentIndex i
  | none => c

/-- The value of `currentData().toString()`: the user data of the current entry,
empty when there is none. -/
def QComboBox.currentData (c : QComboBox) : QString :=
  if c.currentIndex < 0 then []
  else match c.items.get? c.currentIndex.toNat with
    | some it => it.userData
    | none => []

/-- Modelled from the spec: the widget `FileBox` (`widgets/filebox`), whose code
is not among the sources.  It returns the current path last set on it, and
keeps the default path apart. -/
structure FileBox where
  currentPath : QString
  defaultPath : QString
  deriving DecidableEq, Repr

def FileBox.setCurrentPath (f : FileBox) (path : QString) : FileBox :=
  { f with currentPath := path }

def FileBox.setDefaultPath (f : FileBox) (path : QString) : FileBox :=
  { f with defaultPath := path }

def FileBox.getCurrentPath (f : FileBox) : QString := f.currentPath

/-- A `QListWidgetItem` of the toolbar lists: icon, text, and the data stored
under `PoolListWidget::IdentifierRole` and `PoolListWidget::ReusableRole`. -/
structure QListWidgetItem where
  icon : QIcon
  text : QString
  identifier : QString
  reusable : Bool
  deriving DecidableEq, Repr

/-- Modelled from the spec: the call `PoolListWidget::addItem(item, reusable)`
(`widgets/poollistwidget`, not among the sources), which stores the flag under
`ReusableRole` and appends the item. -/
def PoolListWidget.addItemFlagged (l : List QListWidgetItem) (item : QListWidgetItem)
    (reusable : Bool) : List QListWidgetItem :=
  l ++ [{ item with reusable := reusable }]

/-- Modelled from the spec: the call `PoolListWidget::addItem(item)` with one
argument (`widgets/poollistwidget`, not among the sources).  The item is
appended with its data as they are: a reusable item stays reusable, and an
item that is not reusable stays so. -/
def PoolListWidget.addItem (l : List QListWidgetItem) (item : QListWidgetItem) :
    List QListWidgetItem :=
  l ++ [item]

/-- The call `addItem(item)` of a list widget: the item is appended as it is. -/
def QListWidget.addItem (l : List QListWidgetItem) (item : QListWidgetItem) :
    List QListWidgetItem :=
  l ++ [item]

/-- A language offered by the application. -/
structure Language where
  flag : QIcon
  title : QString
  code : QString
  deriving DecidableEq, Repr

/-- The stored settings, as returned by the getters of `app->settings`. -/
structure Settings where
  autoUpdates : Bool
  recentLimit : Int
  language : QString
  apktoolPath : QString
  outputDirectory : QString
  defaultOutputDirectory : QString
  frameworksDirectory : QString
  decompileSources : Bool
  signApk : Bool
  apksignerPath : QString
  optimizeApk : Bool
  zipalignPath : QString
  adbPath : QString
  toolbar : List QString

/-- What the dialog reads from the application object: the settings, the list
of languages, the path helpers, the translation function, the icon store and
the action pool `Toolbar::all()`. -/
structure Application where
  settings : Settings
  languages : List Language
  getSharedPath : QString → QString
  getLocalConfigPath : QString → QString
  getBinaryPath : QString → QString
  tr : QString → QString
  icons : QString → QIcon
  toolbarAll : ActionMap

/-- The widgets of the options dialog that `load` and `save` touch, and the
signals the dialog has emitted. -/
structure OptionsDialog where
  checkboxUpdates : QCheckBox
  spinboxRecent : QSpinBox
  comboLanguages : QComboBox
  fileboxApktool : FileBox
  fileboxOutput : FileBox
  fileboxFrameworks : FileBox
  checkboxSources : QCheckBox
  groupSign : QCheckBox
  fileboxApksigner : FileBox
  groupZipalign : QCheckBox
  fileboxZipalign : FileBox
  fileboxAdb : FileBox
  listToolbarUsed : List QListWidgetItem
  listToolbarUnused : List QListWidgetItem
  emitted : List QString

/-- A call that `OptionsDialog::save` makes on the application. -/
inductive SaveCall where
  | setAutoUpdates (value : Bool)
  | setLanguage (code : QString)
  | setLimit (value : Int)
  | setApktoolPath (path : QString)
  | setOutputDirectory (path : QString)
  | setFrameworksDirectory (path : QString)
  | setDecompileSources (value : Bool)
  | setSignApk (value : Bool)
  | setApksignerPath (path : QString)
  | setOptimizeApk (value : Bool)
  | setZipalignPath (path : QString)
  | setAdbPath (path : QString)
  | setToolbar (identifiers : List QString)
  | emitSaved
  deriving DecidableEq, Repr

namespace OptionsDialog

def separatorId : QString := "separator".toList

def spacerId : QString := "spacer".toList

/-- The function `OptionsDialog::createToolbarSeparatorItem`. -/
def createToolbarSeparatorItem (app : Application) : QListWidgetItem :=
  { icon := app.icons "separator.png".toList, text := app.tr "Separator".toList,
    identifier := separatorId, reusable := true }

/-- The function `OptionsDialog::createToolbarSpacerItem`. -/
def createToolbarSpacerItem (app : Application) : QListWidgetItem :=
  { icon := app.icons "spacer.png".toList, text := app.tr "Spacer".toList,
    identifier := spacerId, reusable := true }

/-- The text of an action with every ampersand removed (`text().remove`). -/
def actionLabel (a : QAction) : QString := a.text.filter (fun c => c != '&')

/-- The loop over the languages in `load`: every language becomes an entry, and
the entry of the current locale is made current. -/
def loadLanguages (currentLocale : QString) : List Language → QComboBox → QComboBox
  | [], combo => combo
  | language :: rest, combo =>
    let combo := combo.addItem language.flag language.title language.code
    let combo := if language.code = currentLocale then combo.setCurrentIndex (combo.count - 1)
      else combo
    loadLanguages currentLocale rest combo

/-- The settings pages of `load` (the body up to the toolbar page). -/
def loadPages (app : Application) (d : OptionsDialog) : OptionsDialog :=
  let s := app.settings
  { d with
    checkboxUpdates := d.checkboxUpdates.setChecked s.autoUpdates
    spinboxRecent := d.spinboxRecent.setValue s.recentLimit
    comboLanguages :=
      (loadLanguages s.language app.languages d.comboLanguages.clear).setCurrentText s.language
    fileboxApktool := (d.fileboxApktool.setCurrentPath s.apktoolPath).setDefaultPath
      (app.getSharedPath "tools/apktool.jar".toList)
    fileboxOutput := (d.fileboxOutput.setCurrentPath s.outputDirectory).setDefaultPath
      s.defaultOutputDirectory
    fileboxFrameworks := (d.fileboxFrameworks.setCurrentPath s.frameworksDirectory).setDefaultPath
      (app.getLocalConfigPath "frameworks".toList)
    checkboxSources := d.checkboxSources.setChecked s.decompileSources
    groupSign := d.groupSign.setChecked s.signApk
    fileboxApksigner := (d.fileboxApksigner.setCurrentPath s.apksignerPath).setDefaultPath
      (app.getSharedPath "tools/apksigner.jar".toList)
    groupZipalign := d.groupZipalign.setChecked s.optimizeApk
    fileboxZipalign := (d.fileboxZipalign.setCurrentPath s.zipalignPath).setDefaultPath
      (app.getBinaryPath "zipalign".toList)
    fileboxAdb := (d.fileboxAdb.setCurrentPath s.adbPath).setDefaultPath
      (app.getBinaryPath "adb".toList) }

/-- The loop of `load` over the stored toolbar identifiers: the state is the
used list built so far and the map of the actions not used yet. -/
def loadUsed (app : Application) :
    List QString → List QListWidgetItem × ActionMap → List QListWidgetItem × ActionMap
  | [], st => st
  | identifier :: rest, (used, unusedToolbarActions) =>
    if identifier = separatorId then
      loadUsed app rest (QListWidget.addItem used (createToolbarSeparatorItem app),
        unusedToolbarActions)
    else if identifier = spacerId then
      loadUsed app rest (QListWidget.addItem used (createToolbarSpacerItem app),
        unusedToolbarActions)
    else
      let action := unusedToolbarActions.value identifier
      let unusedToolbarActions := unusedToolbarActions.remove identifier
      match action with
      | some a =>
        loadUsed app rest (QListWidget.addItem used
          { icon := a.icon, text := actionLabel a, identifier := identifier, reusable := false },
          unusedToolbarActions)
      | none => loadUsed app rest (used, unusedToolbarActions)

/-- The loop of `load` over the actions left in the map.  The action pointer
is dereferenced without a test, so the outcome is not defined (`none`) when a
null pointer is left in the map. -/
def loadUnused : ActionMap → List QListWidgetItem → Option (List QListWidgetItem)
  | [], unused => some unused
  | (identifier, action) :: rest, unused =>
    match action with
    | none => none
    | some a =>
      loadUnused rest (PoolListWidget.addItemFlagged unused
        { icon := a.icon, text := actionLabel a, identifier := identifier, reusable := false }
        false)

/-- The function `OptionsDialog::load`. -/
def load (app : Application) (d : OptionsDialog) : Option OptionsDialog :=
  let d := loadPages app d
  let usedAndMap := loadUsed app app.settings.toolbar ([], app.toolbarAll)
  match loadUnused usedAndMap.2 [] with
  | none => none
  | some unused =>
    some { d with
      listToolbarUsed := usedAndMap.1
      listToolbarUnused := PoolListWidget.addItem
        (PoolListWidget.addItem unused (createToolbarSeparatorItem app))
        (createToolbarSpacerItem app)
      emitted := d.emitted ++ ["loaded".toList] }

/-- The loop of `save` over the rows `0 .. count() - 1` of the used list: the
identifier of `item(i)` is appended to the list. -/
def saveToolbar (used : List QListWidgetItem) : List QString :=
  forEachIndex used (fun toolbar item => toolbar ++ [item.identifier]) []

/-- The function `OptionsDialog::save`: the calls it makes, in order. -/
def save (d : OptionsDialog) : List SaveCall :=
  [ .setAutoUpdates d.checkboxUpdates.isChecked,
    .setLanguage d.comboLanguages.currentData,
    .setLimit d.spinboxRecent.value,
    .setApktoolPath d.fileboxApktool.getCurrentPath,
    .setOutputDirectory d.fileboxOutput.getCurrentPath,
    .setFrameworksDirectory d.fileboxFrameworks.getCurrentPath,
    .setDecompileSources d.checkboxSources.isChecked,
    .setSignApk d.groupSign.isChecked,
    .setApksignerPath d.fileboxApksigner.getCurrentPath,
    .setOptimizeApk d.groupZipalign.isChecked,
    .setZipalignPath d.fileboxZipalign.getCurrentPath,
    .setAdbPath d.fileboxAdb.getCurrentPath,
    .setToolbar (saveToolbar d.listToolbarUsed),
    .emitSaved ]

/-- The list the specification expects `save` to store after `load`: of the
stored list, in order, every separator and spacer entry and the first
occurrence of each identifier that the pool maps to a non-null action; every
other entry is dropped.  The list `earlier` holds the entries that come before. -/
def keptToolbar (pool : ActionMap) (earlier : List QString) : List QString → List QString
  | [] => []
  | identifier :: rest =>
    let tail := keptToolbar pool (earlier ++ [identifier]) rest
    if identifier = separatorId ∨ identifier = spacerId ∨
        ((pool.value identifier).isSome ∧ identifier ∉ earlier) then
      identifier :: tail
    else tail

/-- The lists that a sequence of calls passes to `setToolbar`, in order. -/
def storedToolbars : List SaveCall → List (List QString)
  | [] => []
  | .setToolbar identifiers :: rest => identifiers :: storedToolbars rest
  | _ :: rest => storedToolbars rest

/-- A sample action pool: three actions. -/
def examplePool : ActionMap :=
  [ ("install-project".toList, some ⟨"install.png".toList, "&Install APK...".toList⟩),
    ("open-project".toList, some ⟨"open.png".toList, "&Open APK...".toList⟩),
    ("save-project".toList, some ⟨"save.png".toList, "&Save APK...".toList⟩) ]

/-- A sample application state with a given stored toolbar list. -/
def exampleApp (toolbar : List QString) : Application :=
  { settings :=
      { autoUpdates := true, recentLimit := 10, language := "en".toList,
        apktoolPath := "/opt/apktool.jar".toList, outputDirectory := "/tmp/out".toList,
        defaultOutputDirectory := "/tmp".toList, frameworksDirectory := [],
        decompileSources := false, signApk := true, apksignerPath := [],
        optimizeApk := true, zipalignPath := "/usr/bin/zipalign".toList,
        adbPath := "/usr/bin/adb".toList, toolbar := toolbar },
    languages := [⟨"us.png".toList, "English".toList, "en".toList⟩,
      ⟨"ru.png".toList, "Russian".toList, "ru".toList⟩],
    getSharedPath := fun p => "/usr/share/".toList ++ p,
    getLocalConfigPath := fun p => "/home/user/.config/".toList ++ p,
    getBinaryPath := fun p => "/usr/bin/".toList ++ p,
    tr := fun t => t,
    icons := fun name => name,
    toolbarAll := examplePool }

/-- A sample stored toolbar list: separators, a spacer and distinct pooled
identifiers. -/
def exampleToolbar : List QString :=
  [ "open-project".toList, separatorId, "save-project".toList, separatorId, spacerId,
    "install-project".toList ]

/-- A freshly created dialog: the widgets as `initialize` leaves them before
it calls `load`. -/
def exampleDialog : OptionsDialog :=
  { checkboxUpdates := ⟨false⟩, spinboxRecent := ⟨0, 50, 0⟩, comboLanguages := ⟨[], -1⟩,
    fileboxApktool := ⟨[], []⟩, fileboxOutput := ⟨[], []⟩, fileboxFrameworks := ⟨[], []⟩,
    checkboxSources := ⟨false⟩, groupSign := ⟨false⟩, fileboxApksigner := ⟨[], []⟩,
    groupZipalign := ⟨false⟩, fileboxZipalign := ⟨[], []⟩, fileboxAdb := ⟨[], []⟩,
    listToolbarUsed := [], listToolbarUnused := [], emitted := [] }

end OptionsDialog

/-! ## Framework types used by the titles model -/

/-- A node of a parsed XML document: an element with its tag name, attributes
and child nodes, or a node of another kind (text, comment, and so on). -/
inductive QDomNode where
  | element (tagName : QString) (attributes : List (QString × QString))
      (children : List QDomNode)
  | other (nodeName : QString) (data : QString)

/-- A `QDomElement`: a node that is an element, or the null element. -/
abbrev QDomElement := Option QDomNode

/-- The call `QDomNode::toElement`: the null element when the node is not an
element. -/
def QDomNode.toElement : QDomNode → QDomElement
  | .element t a c => some (.element t a c)
  | .other _ _ => none

/-- The call `nodeName()`; for an element it is the tag name. -/
def QDomNode.nodeName : QDomNode → QString
  | .element t _ _ => t
  | .other n _ => n

/-- The call `QDomElement::attribute(name)`: the value of the attribute, and
the default value, the empty string, when the element has no such attribute. -/
def QDomNode.attribute : QDomNode → QString → QString
  | .element _ attributes _, name =>
    match attributes.find? (fun a => a.1 == name) with
    | some a => a.2
    | none => []
  | .other _ _, _ => []

/-- The call `childNodes()` of an element; the null element has none. -/
def QDomElement.childNodes : QDomElement → List QDomNode
  | some (.element _ _ children) => children
  | _ => []

/-- A `QDomDocument`: the children of the document node.  A document whose
content could not be parsed has none. -/
structure QDomDocument where
  children : List QDomNode

/-- The call `firstChildElement(tagName)` of the document: its first child that
is an element with this tag name, or the null element. -/
def QDomDocument.firstChildElement (doc : QDomDocument) (tagName : QString) : QDomElement :=
  doc.children.find? (fun n =>
    match n with
    | .element t _ _ => t == tagName
    | .other _ _ => false)

/-- A `QVariant`, with the kinds of content the model handles: nothing (the
invalid variant), a string, an icon. -/
inductive QVariant where
  | invalid
  | string (s : QString)
  | icon (i : QIcon)
  deriving DecidableEq, Repr

/-- The call `QVariant::toString`: the string held, and the empty string for
an invalid variant or an icon. -/
def QVariant.toString : QVariant → QString
  | .string s => s
  | _ => []

/-- The comparison `string != variant` of `setData`: the string is wrapped
into a variant; a string variant differs from an invalid variant and from an
icon, which cannot be converted to a string, and from a string variant with
another text. -/
def QVariant.differs (s : QString) : QVariant → Bool
  | .string t => s != t
  | _ => true

/-- A `QModelIndex`: row, column, and whether it refers to a model. -/
structure QModelIndex where
  row : Int
  column : Int
  hasModel : Bool
  deriving DecidableEq, Repr

/-- The default-constructed, invalid index. -/
def QModelIndex.null : QModelIndex := ⟨-1, -1, false⟩

def QModelIndex.isValid (i : QModelIndex) : Bool :=
  decide (0 ≤ i.row) && decide (0 ≤ i.column) && i.hasModel

/-- The item data roles. -/
def DisplayRole : Int := 0

def DecorationRole : Int := 1

def EditRole : Int := 2

/-- The item flags, as bit sets. -/
def ItemIsSelectable : Nat := 1

def ItemIsEditable : Nat := 2

def ItemIsEnabled : Nat := 32

/-- The base implementation `QAbstractItemModel::flags`. -/
def baseFlags (index : QModelIndex) : Nat :=
  if index.isValid then ItemIsSelectable ||| ItemIsEnabled else 0

/-- Modelled from the spec: the class `XmlNode` (not among the sources), built
from an element and a flag.  It returns the value last set on it; `value` is
what `getValue` returns. -/
structure XmlNode where
  element : QDomNode
  wrapper : Bool
  value : QString

def XmlNode.getValue (n : XmlNode) : QString := n.value

def XmlNode.setValue (n : XmlNode) (v : QString) : XmlNode := { n with value := v }

/-- Modelled from the spec: the class `ResourceFile` (not among the sources),
built from the path of a resource file. -/
structure ResourceFile where
  filePath : QString
  deriving DecidableEq, Repr

def ResourceFile.getFilePath (f : ResourceFile) : QString := f.filePath

/-- A row of the titles model. -/
structure TitleNode where
  node : XmlNode
  file : ResourceFile

/-- What the titles model reads from its surroundings: the directory
iterators, the content of files, the XML parser, and the parts of `XmlNode`
and `ResourceFile` that depend on code not among the sources. -/
structure Platform where
  /-- The paths a `QDirIterator` over the sub-directories of a directory
  returns (`QDir::Dirs | QDir::NoDotAndDotDot`), in order. -/
  directories : QString → List QString
  /-- The paths a `QDirIterator` over the files of a directory returns
  (`QDir::Files`), in order. -/
  files : QString → List QString
  /-- The text of a file, or `none` when it cannot be opened for reading. -/
  readAll : QString → Option QString
  /-- The document `QDomDocument::setContent` builds from a text. -/
  setContent : QString → QDomDocument
  /-- The value an `XmlNode` has when it is built. -/
  nodeValue : QDomNode → Bool → QString
  /-- The results of `ResourceFile::getLanguageName`, `getReadableQualifiers`
  and `getLanguageIcon`, from the path of the file. -/
  languageName : QString → QString
  readableQualifiers : QString → QString
  languageIcon : QString → QIcon

/-- The getters of `ResourceFile` whose results come from the platform. -/
def ResourceFile.getLanguageName (f : ResourceFile) (env : Platform) : QString :=
  env.languageName f.filePath

def ResourceFile.getReadableQualifiers (f : ResourceFile) (env : Platform) : QString :=
  env.readableQualifiers f.filePath

def ResourceFile.getLanguageIcon (f : ResourceFile) (env : Platform) : QIcon :=
  env.languageIcon f.filePath

/-- The constructor `XmlNode(element, wrapper)`. -/
def Platform.newXmlNode (env : Platform) (element : QDomNode) (wrapper : Bool) : XmlNode :=
  { element := element, wrapper := wrapper, value := env.nodeValue element wrapper }

/-- What the titles model does to its surroundings, and the calls of `add`
with their arguments. -/
inductive ModelEvent where
  | addCalled (filepath key : QString)
  | iterateDirectories (path : QString)
  | iterateFiles (path : QString)
  | openFile (path : QString)
  | beginInsertRows (first last : Int)
  | endInsertRows
  | dataChanged (topLeft bottomRight : QModelIndex)
  | warning (message : QString)
  deriving DecidableEq, Repr

/-- The manifest scope, with the value of its label attribute. -/
structure ManifestScope where
  label : QString

structure Manifest where
  scopes : List ManifestScope

/-- The class `Project`, as far as the titles model reads it. -/
structure Project where
  manifest : Manifest
  contentsPath : QString

/-- The class `TitleItemsModel`: its rows, and the events it has caused. -/
structure TitleItemsModel where
  nodes : List TitleNode
  trace : List ModelEvent

namespace TitleItemsModel

/-- Modelled from the spec: the column enumeration of `titleitemsmodel.h` (not
among the sources), in the order in which the columns are named. -/
def Value : Int := 0

def ResourceLanguage : Int := 1

def ResourceQualifiers : Int := 2

def ResourcePath : Int := 3

def ColumnCount : Int := 4

def rowCount (m : TitleItemsModel) : Int := m.nodes.length

def columnCount (_ : TitleItemsModel) : Int := ColumnCount

/-- The function `TitleItemsModel::index`.  An index is created for any row
and column; a valid parent gives the invalid index (and a warning on the
debug output). -/
def index (_ : TitleItemsModel) (row column : Int) (parent : QModelIndex) : QModelIndex :=
  if parent.isValid then QModelIndex.null
  else ⟨row, column, true⟩

/-- The body of the loop of `add` for the child node `i`. -/
def addNode (env : Platform) (filepath key : QString) (xmlNode : QDomNode)
    (m : TitleItemsModel) : TitleItemsModel :=
  match xmlNode.toElement with
  | some element =>
    if element.nodeName = "string".toList ∧ element.attribute "name".toList = key then
      { nodes := m.nodes ++ [⟨env.newXmlNode element true, ⟨filepath⟩⟩],
        trace := m.trace ++ [.beginInsertRows m.rowCount m.rowCount, .endInsertRows] }
    else m
  | none =>
    { m with trace := m.trace ++
        [.warning "CRITICAL: Element \"resources\" contains non-element child nodes".toList] }

/-- The loop of `add` over the indices `0 .. count() - 1` of the child nodes. -/
def addLoop (env : Platform) (filepath key : QString) (xmlNodes : List QDomNode)
    (m : TitleItemsModel) : TitleItemsModel :=
  forEachIndex xmlNodes (fun m xmlNode => addNode env filepath key xmlNode m) m

/-- The function `TitleItemsModel::add`. -/
def add (env : Platform) (m : TitleItemsModel) (filepath key : QString) : TitleItemsModel :=
  let m := { m with trace := m.trace ++ [.addCalled filepath key, .openFile filepath] }
  match env.readAll filepath with
  | some text =>
    let xmlDocument := env.setContent text
    let xmlNodes := (xmlDocument.firstChildElement "resources".toList).childNodes
    addLoop env filepath key xmlNodes m
  | none => m

/-- The call `QFileInfo(path).fileName()`: the text after the last slash. -/
def fileName (path : QString) : QString :=
  (path.reverse.takeWhile (fun c => c != '/')).reverse

/-- The call `QString::split(sep)`: the parts between the separators, empty
parts included; the result is never empty. -/
def split (sep : Char) : QString → List QString
  | [] => [[]]
  | c :: cs =>
    if c = sep then [] :: split sep cs
    else match split sep cs with
      | [] => [[c]]
      | part :: parts => (c :: part) :: parts

/-- The inner loop of the constructor: every file of a resource directory is
passed to `add`. -/
def addFiles (env : Platform) (labelKey : QString) :
    List QString → TitleItemsModel → TitleItemsModel
  | [], m => m
  | resourceFile :: rest, m => addFiles env labelKey rest (add env m resourceFile labelKey)

/-- The outer loop of the constructor, over the paths of the sub-directories
of the resource directory. -/
def addDirectories (env : Platform) (contentsPath labelKey : QString) :
    List QString → TitleItemsModel → TitleItemsModel
  | [], m => m
  | path :: rest, m =>
    let resourceDirectory := fileName path
    let resourceType := (split '-' resourceDirectory).headD []
    if resourceType = "values".toList then
      let directory := contentsPath ++ "/res/".toList ++ resourceDirectory
      let m := { m with trace := m.trace ++ [.iterateFiles directory] }
      addDirectories env contentsPath labelKey rest
        (addFiles env labelKey (env.files directory) m)
    else addDirectories env contentsPath labelKey rest m

/-- The constructor of `TitleItemsModel`.  Taking the first scope of a manifest
without scopes has no defined outcome (`none`). -/
def new (env : Platform) (apk : Project) : Option TitleItemsModel :=
  match apk.manifest.scopes with
  | [] => none
  | scope :: _ =>
    let labelAttribute := scope.label
    if !("@string/".toList.isPrefixOf labelAttribute) then some ⟨[], []⟩
    else
      let labelKey := labelAttribute.drop "@string/".toList.length
      let directory := apk.contentsPath ++ "/res/".toList
      some (addDirectories env apk.contentsPath labelKey (env.directories directory)
        ⟨[], [.iterateDirectories directory]⟩)

/-- The function `TitleItemsModel::setData`: the result and the model after
the call.  Reading a row outside the list has no defined outcome (`none`). -/
def setData (m : TitleItemsModel) (index : QModelIndex) (value : QVariant) (role : Int) :
    Option (Bool × TitleItemsModel) :=
  if index.isValid ∧ role = EditRole then
    let row := index.row.toNat
    match m.nodes.get? row with
    | none => none
    | some title =>
      if QVariant.differs title.node.getValue value then
        some (true,
          { nodes := m.nodes.set row { title with node := title.node.setValue value.toString },
            trace := m.trace ++ [.dataChanged index index] })
      else some (false, m)
  else some (false, m)

/-- The function `TitleItemsModel::data`.  Reading a row outside the list has
no defined outcome (`none`). -/
def data (env : Platform) (m : TitleItemsModel) (index : QModelIndex) (role : Int) :
    Option QVariant :=
  if index.isValid then
    match m.nodes.get? index.row.toNat with
    | none => none
    | some title =>
      if role = DisplayRole ∨ role = EditRole then
        if index.column = Value then some (.string title.node.getValue)
        else if index.column = ResourceLanguage then
          some (.string (title.file.getLanguageName env))
        else if index.column = ResourceQualifiers then
          some (.string (title.file.getReadableQualifiers env))
        else if index.column = ResourcePath then some (.string title.file.getFilePath)
        else some .invalid
      else if role = DecorationRole then
        if index.column = ResourceLanguage then
          some (.icon (title.file.getLanguageIcon env))
        else some .invalid
      else some .invalid
  else some .invalid

/-- The function `TitleItemsModel::flags`. -/
def flags (_ : TitleItemsModel) (index : QModelIndex) : Nat :=
  if index.column = 0 then baseFlags index ||| ItemIsEditable
  else baseFlags index

/-- An element child that the specification counts as a label node for a key:
an element whose tag name is `string` and whose `name` attribute, read as
`attribute` reads it (the empty string when absent), equals the key. -/
def isLabelElement (key : QString) : QDomNode → Bool
  | .element t attributes children =>
    decide (t = "string".toList) &&
      decide ((QDomNode.element t attributes children).attribute "name".toList = key)
  | .other _ _ => false

/-- The child nodes of the `resources` root element of the document in a file;
none when the file cannot be opened or the document has no such root. -/
def resourcesChildren (env : Platform) (filepath : QString) : List QDomNode :=
  match env.readAll filepath with
  | some text => ((env.setContent text).firstChildElement "resources".toList).childNodes
  | none => []

/-- The rows the specification expects `add` to append: one for each label
element among the children of the `resources` root, in document order, each
bound to the file. -/
def labelRows (env : Platform) (filepath key : QString) : List TitleNode :=
  ((resourcesChildren env filepath).filter (isLabelElement key)).map
    (fun element => ⟨env.newXmlNode element true, ⟨filepath⟩⟩)

/-- A sample `string` element with a name and a text. -/
def exampleString (name text : QString) : QDomNode :=
  .element "string".toList [("name".toList, name)] [.other "#text".toList text]

/-- A sample resource document: a comment, then the `resources` root with two
label elements for `app_name` among other children. -/
def exampleDocument : QDomDocument :=
  ⟨[ .other "#comment".toList "generated".toList,
     .element "resources".toList []
       [ exampleString "app_name".toList "My App".toList,
         .other "#text".toList " ".toList,
         exampleString "hello".toList "Hello".toList,
         .element "color".toList [("name".toList, "app_name".toList)] [],
         exampleString "app_name".toList "Second".toList ] ]⟩

/-- A sample platform: a resource directory with two `values` directories and
two others; one of the listed files cannot be opened. -/
def examplePlatform : Platform where
  directories := fun path =>
    if path = "/c/res/".toList then
      [ "/c/res/values".toList, "/c/res/drawable".toList, "/c/res/values-ru-rRU".toList,
        "/c/res/values_old".toList ]
    else []
  files := fun path =>
    if path = "/c/res/values".toList then
      ["/c/res/values/strings.xml".toList, "/c/res/values/locked.xml".toList]
    else if path = "/c/res/values-ru-rRU".toList then ["/c/res/values-ru-rRU/strings.xml".toList]
    else []
  readAll := fun path => if path = "/c/res/values/locked.xml".toList then none else some path
  setContent := fun _ => exampleDocument
  nodeValue := fun element _ =>
    match element with
    | .element _ _ [.other _ text] => text
    | _ => []
  languageName := fun path => fileName (path.take (path.length - (fileName path).length - 1))
  readableQualifiers := fun _ => []
  languageIcon := fun _ => "flag.png".toList

/-- A sample model: the rows of one resource file. -/
def exampleModel : TitleItemsModel :=
  add examplePlatform ⟨[], []⟩ "/c/res/values/strings.xml".toList "app_name".toList

end TitleItemsModel

/-! ## `windows/mainwindow.cpp` -/

/-- A `QByteArray`. -/
abbrev QByteArray := List Nat

/-- The settings that the main window writes. -/
structure WindowSettings where
  mainWindowGeometry : QByteArray
  mainWindowState : QByteArray
  deriving DecidableEq, Repr

/-- Modelled from the spec: the setters of the settings object (not among the
sources) store the blob under its key. -/
def WindowSettings.setMainWindowGeometry (s : WindowSettings) (b : QByteArray) :
    WindowSettings :=
  { s with mainWindowGeometry := b }

def WindowSettings.setMainWindowState (s : WindowSettings) (b : QByteArray) : WindowSettings :=
  { s with mainWindowState := b }

/-- A call the main window makes while it handles the close event. -/
inductive WindowCall where
  | question (text : QString)
  | setMainWindowGeometry (blob : QByteArray)
  | setMainWindowState (blob : QByteArray)
  deriving DecidableEq, Repr

/-- A `QCloseEvent`: its accept flag. -/
structure QCloseEvent where
  accepted : Bool
  deriving DecidableEq, Repr

def QCloseEvent.accept (_ : QCloseEvent) : QCloseEvent := ⟨true⟩

def QCloseEvent.ignore (_ : QCloseEvent) : QCloseEvent := ⟨false⟩

/-- The main window, as far as `closeEvent` reads it: the results of
`saveGeometry()`, `saveState()` and `hasUnsavedProjects()`, the settings, and
the calls made so far. -/
structure MainWindow where
  saveGeometry : QByteArray
  saveState : QByteArray
  hasUnsavedProjects : Bool
  settings : WindowSettings
  calls : List WindowCall
  deriving DecidableEq, Repr

namespace MainWindow

/-- The button codes of `QMessageBox`. -/
def Discard : Int := 0x00800000

def Cancel : Int := 0x00400000

/-- The text of the question that `closeEvent` asks. -/
def unsavedQuestion : QString :=
  "You have unsaved changes.\nDo you want to discard them and exit?".toList

/-- The function `MainWindow::saveSettings`. -/
def saveSettings (w : MainWindow) : MainWindow :=
  let w : MainWindow := { w with
    settings := w.settings.setMainWindowGeometry w.saveGeometry
    calls := w.calls ++ [WindowCall.setMainWindowGeometry w.saveGeometry] }
  { w with
    settings := w.settings.setMainWindowState w.saveState
    calls := w.calls ++ [WindowCall.setMainWindowState w.saveState] }

/-- The function `MainWindow::closeEvent`.  The argument `answer` is the button
the user presses if the question is asked. -/
def closeEvent (w : MainWindow) (answer : Int) (event : QCloseEvent) :
    MainWindow × QCloseEvent :=
  let unsaved := w.hasUnsavedProjects
  if unsaved then
    let w : MainWindow := { w with calls := w.calls ++ [WindowCall.question unsavedQuestion] }
    if answer ≠ Discard then (w, event.ignore)
    else (saveSettings w, event.accept)
  else (saveSettings w, event.accept)

/-- A sample main window with unsaved projects. -/
def exampleWindow : MainWindow :=
  { saveGeometry := [1, 2, 3], saveState := [4, 5], hasUnsavedProjects := true,
    settings := ⟨[], []⟩, calls := [] }

end MainWindow

/-! ## The options dialog: creation of the widgets and the handlers -/

/-- A newly created `QSpinBox`: range 0 to 99, value 0. -/
def QSpinBox.new : QSpinBox := ⟨0, 99, 0⟩

/-- The range setter behind `setMinimum` and `setMaximum`: the maximum is never
below the minimum, and the value is bound to the new range. -/
def QSpinBox.setRange (sb : QSpinBox) (lo hi : Int) : QSpinBox :=
  ({ sb with minimum := lo, maximum := if lo < hi then hi else lo } : QSpinBox).setValue sb.value

/-- The call `QSpinBox::setMinimum`. -/
def QSpinBox.setMinimum (sb : QSpinBox) (m : Int) : QSpinBox :=
  sb.setRange m (if m < sb.maximum then sb.maximum else m)

/-- The call `QSpinBox::setMaximum`. -/
def QSpinBox.setMaximum (sb : QSpinBox) (m : Int) : QSpinBox :=
  sb.setRange (if sb.minimum < m then sb.minimum else m) m

namespace OptionsDialog

/-- The widgets as `OptionsDialog::initialize` creates them, before it calls
`load`: the spin box of the recent files gets the range 0 to 50, the lists and
the combo box are empty, the file boxes have no path. -/
def createWidgets : OptionsDialog :=
  { checkboxUpdates := ⟨false⟩,
    spinboxRecent := (QSpinBox.new.setMinimum 0).setMaximum 50,
    comboLanguages := ⟨[], -1⟩,
    fileboxApktool := ⟨[], []⟩, fileboxOutput := ⟨[], []⟩, fileboxFrameworks := ⟨[], []⟩,
    checkboxSources := ⟨false⟩, groupSign := ⟨false⟩, fileboxApksigner := ⟨[], []⟩,
    groupZipalign := ⟨false⟩, fileboxZipalign := ⟨[], []⟩, fileboxAdb := ⟨[], []⟩,
    listToolbarUsed := [], listToolbarUnused := [], emitted := [] }

/-- The function `OptionsDialog::initialize`, as far as the widgets of `load` and
`save` go: the widgets are created and `load` is called. -/
def initializeDialog (app : Application) : Option OptionsDialog :=
  load app createWidgets

/-- The values that a sequence of calls passes to `Recent::setLimit`, in order. -/
def savedLimits : List SaveCall → List Int
  | [] => []
  | .setLimit value :: rest => value :: savedLimits rest
  | _ :: rest => savedLimits rest

end OptionsDialog

namespace OptionsDialog

/-- The handler of a double click on row `row` of the used list, connected in
`initialize`: the item is taken out of the used list and, unless it is
reusable, added to the unused list.  Taking a row that does not exist gives
a null pointer, whose data cannot be read (`none`). -/
def usedDoubleClicked (d : OptionsDialog) (row : Nat) : Option OptionsDialog :=
  match d.listToolbarUsed.get? row with
  | none => none
  | some item =>
    let used := d.listToolbarUsed.eraseIdx row
    let reusable := item.reusable
    if !reusable then
      some { d with
        listToolbarUsed := used
        listToolbarUnused := PoolListWidget.addItem d.listToolbarUnused item }
    else some { d with listToolbarUsed := used }

/-- The handler of a double click on row `row` of the unused list, connected in
`initialize`: a copy of the item is added to the used list and, unless the
item is reusable, the item is deleted, which removes it from the unused
list. -/
def unusedDoubleClicked (d : OptionsDialog) (row : Nat) : Option OptionsDialog :=
  match d.listToolbarUnused.get? row with
  | none => none
  | some item =>
    let reusable := item.reusable
    let used := QListWidget.addItem d.listToolbarUsed item
    if !reusable then
      some { d with
        listToolbarUsed := used
        listToolbarUnused := d.listToolbarUnused.eraseIdx row }
    else some { d with listToolbarUsed := used }

/-- What the user does in the dialog between `load` and `save`, as far as the
recent-files limit and the toolbar lists go: a value is entered into the spin
box, which keeps it within its range, or a row of one of the toolbar lists is
double-clicked. -/
inductive DialogEvent where
  | recentEdited (value : Int)
  | usedDoubleClicked (row : Nat)
  | unusedDoubleClicked (row : Nat)
  deriving DecidableEq, Repr

/-- The effect of one event on the dialog. -/
def handle (d : OptionsDialog) : DialogEvent → Option OptionsDialog
  | .recentEdited value => some { d with spinboxRecent := d.spinboxRecent.setValue value }
  | .usedDoubleClicked row => usedDoubleClicked d row
  | .unusedDoubleClicked row => unusedDoubleClicked d row

/-- The effect of a sequence of events. -/
def handleAll (d : OptionsDialog) : List DialogEvent → Option OptionsDialog
  | [] => some d
  | event :: rest =>
    match handle d event with
    | none => none
    | some next => handleAll next rest

end OptionsDialog

/-! ## `Java::version`: the leftmost, greedy match -/

namespace Java

/-- The pattern `version "(.+)"` can be matched at the very start of a text:
the text starts with `version "`, then come at least one character, none of
them a line break, and a closing `"`. -/
def MatchesAtStart (s : QString) : Prop :=
  ∃ cap post : QString,
    s = versionLiteral ++ cap ++ '"' :: post ∧ cap ≠ [] ∧ ∀ c ∈ cap, c ≠ '\n'

/-- The text `cap` is capture group 1 of the leftmost match, taken greedily:
it starts just after the first `version "` at which the pattern can be
matched, it is not empty and has no line break, and it ends just before the
last `"` of that line (no `"` follows before the next line break). -/
def IsLeftmostGreedy (s cap : QString) : Prop :=
  ∃ pre post : QString,
    s = pre ++ versionLiteral ++ cap ++ '"' :: post ∧ cap ≠ [] ∧ (∀ c ∈ cap, c ≠ '\n') ∧
    (∀ c ∈ post.takeWhile dotMatches, c ≠ '"') ∧
    (∀ pre' rest : QString, s = pre' ++ rest → pre'.length < pre.length →
      ¬ MatchesAtStart rest)

end Java

/-! ## The toolbar lists of the options dialog: what is counted -/

namespace OptionsDialog

end OptionsDialog

/-! ## The titles model: the resource directories that are read -/

namespace TitleItemsModel

end TitleItemsModel

/-! ## The titles model: saving -/

namespace TitleItemsModel

/-- What a call of `TitleItemsModel::save` gives: the value returned, the model
after the call, and the calls of `TitleNode::save` with their outcomes, in the
order in which they are made. -/
structure SaveOutcome where
  result : Bool
  model : TitleItemsModel
  calls : List (TitleNode × Bool)

/-- The function `TitleItemsModel::save`, a `const` member function.  The
function `TitleNode::save` is not among the sources; it is called on a pointer
to a constant title, its outcome is given by `saveTitle`, and the loop does
not look at that outcome. -/
def save (saveTitle : TitleNode → Bool) (m : TitleItemsModel) : SaveOutcome :=
  let calls := m.nodes.foldl (fun calls title => calls ++ [(title, saveTitle title)]) []
  { result := true, model := m, calls := calls }

end TitleItemsModel

/-! ## The main window: actions, title and the menu of recent files -/

/-- Modelled from the spec: the answers of the class `ProjectState`
(`apk/projectstate.h`, not among the sources) to the queries that the main
window makes. -/
structure ProjectState where
  canSave : Bool
  canInstall : Bool
  canExplore : Bool
  canClose : Bool
  canEdit : Bool
  isModified : Bool
  deriving DecidableEq, Repr

/-- The class `Project`, as far as the main window reads it: the results of
`getOriginalPath()` and `getState()`.  A null project pointer is `none`. -/
structure OpenProject where
  originalPath : QString
  state : ProjectState
  deriving DecidableEq, Repr

/-- A `QAction` of the main window: icon, text and the enabled flag. -/
structure WindowAction where
  icon : QIcon
  text : QString
  enabled : Bool
  deriving DecidableEq, Repr

/-- A newly created `QAction` with an icon and a text; it is enabled. -/
def WindowAction.new (icon : QIcon) (text : QString) : WindowAction := ⟨icon, text, true⟩

def WindowAction.setEnabled (a : WindowAction) (b : Bool) : WindowAction :=
  { a with enabled := b }

def WindowAction.setText (a : WindowAction) (text : QString) : WindowAction :=
  { a with text := text }

/-- An entry of the list of recent files: the results of `filename()` and
`thumbnail()`. -/
structure RecentFile where
  filename : QString
  thumbnail : QIcon
  deriving DecidableEq, Repr

/-- An entry of the menu of recent files: an action created for a recent file,
together with the file that its trigger opens; one of the two member actions
of the window (`actionRecentClear`, `actionRecentNone`), held by reference; or
a separator. -/
inductive MenuEntry where
  | fileAction (action : WindowAction) (opens : QString)
  | recentClear
  | recentNone
  | separator
  deriving DecidableEq, Repr

/-- The members of the main window that `setActionsEnabled`,
`updateWindowForProject` and `updateRecentMenu` write, and the actions of the
menu of recent files. -/
structure WindowUi where
  actionApkSave : WindowAction
  actionApkInstall : WindowAction
  actionApkExplore : WindowAction
  actionApkClose : WindowAction
  actionTitleEditor : WindowAction
  actionProjectManager : WindowAction
  actionRecentClear : WindowAction
  actionRecentNone : WindowAction
  menuRecent : List MenuEntry
  menuRecentIcon : QIcon
  menuRecentTitle : QString
  windowTitle : QString
  windowModified : Bool
  deriving DecidableEq, Repr

namespace MainWindow

/-- The part of `MainWindow::initMenus` that creates the menu of recent files
and its two member actions. -/
def initRecentMenu (icons : QString → QIcon) (ui : WindowUi) : WindowUi :=
  { ui with
    menuRecent := []
    menuRecentIcon := icons "recent.png".toList
    actionRecentClear := WindowAction.new (icons "close.png".toList) []
    actionRecentNone := (WindowAction.new [] []).setEnabled false }

/-- The part of `MainWindow::retranslate` for the menu of recent files. -/
def retranslateRecentMenu (tr : QString → QString) (ui : WindowUi) : WindowUi :=
  { ui with
    menuRecentTitle := tr "Open &Recent".toList
    actionRecentClear := ui.actionRecentClear.setText (tr "&Clear List".toList)
    actionRecentNone := ui.actionRecentNone.setText (tr "No Recent Files".toList) }

/-- The function `MainWindow::setActionsEnabled`. -/
def setActionsEnabled (ui : WindowUi) (project : Option OpenProject) : WindowUi :=
  { ui with
    actionApkSave := ui.actionApkSave.setEnabled
      (match project with
        | some p => p.state.canSave
        | none => false)
    actionApkInstall := ui.actionApkInstall.setEnabled
      (match project with
        | some p => p.state.canInstall
        | none => false)
    actionApkExplore := ui.actionApkExplore.setEnabled
      (match project with
        | some p => p.state.canExplore
        | none => false)
    actionApkClose := ui.actionApkClose.setEnabled
      (match project with
        | some p => p.state.canClose
        | none => false)
    actionTitleEditor := ui.actionTitleEditor.setEnabled
      (match project with
        | some p => p.state.canEdit
        | none => false)
    actionProjectManager := ui.actionProjectManager.setEnabled project.isSome }

/-- The function `MainWindow::updateWindowForProject`. -/
def updateWindowForProject (ui : WindowUi) (project : Option OpenProject) : WindowUi :=
  match project with
  | some p =>
    setActionsEnabled
      { ui with
        windowTitle := p.originalPath ++ " [*]".toList
        windowModified := p.state.isModified }
      (some p)
  | none =>
    setActionsEnabled { ui with windowTitle := [], windowModified := false } none

/-- The loop of `updateRecentMenu`: an action is created for every recent entry
and added to the menu. -/
def addRecentActions : List RecentFile → List MenuEntry → List MenuEntry
  | [], menu => menu
  | recentEntry :: rest, menu =>
    addRecentActions rest
      (menu ++ [.fileAction (WindowAction.new recentEntry.thumbnail recentEntry.filename)
        recentEntry.filename])

/-- The function `MainWindow::updateRecentMenu`, given the list `Recent::all()`. -/
def updateRecentMenu (ui : WindowUi) (recentList : List RecentFile) : WindowUi :=
  let menu : List MenuEntry := []
  let menu := addRecentActions recentList menu
  let menu := menu ++ [.separator]
  let menu := menu ++ [if recentList.isEmpty then MenuEntry.recentNone else MenuEntry.recentClear]
  { ui with menuRecent := menu }

/-- A sample state of the members of the window. -/
def exampleUi : WindowUi :=
  { actionApkSave := WindowAction.new "pack.png".toList [],
    actionApkInstall := WindowAction.new "install.png".toList [],
    actionApkExplore := WindowAction.new "explore.png".toList [],
    actionApkClose := WindowAction.new "close-project.png".toList [],
    actionTitleEditor := WindowAction.new "title.png".toList [],
    actionProjectManager := WindowAction.new "project.png".toList [],
    actionRecentClear := WindowAction.new [] [],
    actionRecentNone := WindowAction.new [] [],
    menuRecent := [.recentClear, .separator, .recentClear],
    menuRecentIcon := [], menuRecentTitle := [],
    windowTitle := "old".toList, windowModified := true }

/-- A sample project: it can be saved and closed, and it is modified. -/
def exampleProject : OpenProject :=
  { originalPath := "/home/user/app.apk".toList,
    state := { canSave := true, canInstall := false, canExplore := true, canClose := true,
               canEdit := false, isModified := true } }

end MainWindow

/-! ## Theorems: `Java::version` -/

namespace Java

theorem matchLiteral_sound (l s r : QString) (h : matchLiteral l s = some r) :
    s = l ++ r := by
  induction l generalizing s with
  | nil => simp [matchLiteral] at h; simp [h]
  | cons a l ih =>
    cases s with
    | nil => simp [matchLiteral] at h
    | cons c cs =>
      simp only [matchLiteral] at h
      split at h
      · next hac => simp [hac, ← ih cs h]
      · simp at h

theorem backtrack_sound (rest cap : QString) (k : Nat) (h : backtrack rest k = some cap) :
    ∃ j, 1 ≤ j ∧ j ≤ k ∧ cap = rest.take j ∧ rest.get? j = some '"' := by
  induction k with
  | zero => simp [backtrack] at h
  | succ k ih =>
    simp only [backtrack] at h
    split at h
    · next hq =>
      refine ⟨k + 1, by omega, le_refl _, ?_, hq⟩
      simpa using h.symm
    · obtain ⟨j, h1, h2, h3, h4⟩ := ih h
      exact ⟨j, h1, by omega, h3, h4⟩

theorem take_takeWhile_all (p : Char → Bool) (l : QString) (j : Nat)
    (hj : j ≤ (l.takeWhile p).length) : ∀ c ∈ l.take j, p c = true := by
  induction l generalizing j with
  | nil => simp
  | cons a l ih =>
    cases j with
    | zero => simp
    | succ j =>
      by_cases hp : p a = true
      · simp only [List.takeWhile_cons, hp, if_true, List.length_cons] at hj
        intro c hc
        simp only [List.take_succ_cons, List.mem_cons] at hc
        rcases hc with rfl | hc
        · exact hp
        · exact ih j (by omega) c hc
      · simp [List.takeWhile_cons, hp] at hj

theorem matchGroup_sound (rest cap : QString) (h : matchGroup rest = some cap) :
    ∃ post, rest = cap ++ '"' :: post ∧ cap ≠ [] ∧ ∀ c ∈ cap, c ≠ '\n' := by
  obtain ⟨j, h1, h2, h3, h4⟩ := backtrack_sound rest cap _ h
  have hlt : j < rest.length := by
    rcases Nat.lt_or_ge j rest.length with hlt | hge
    · exact hlt
    · rw [List.get?_eq_none.mpr hge] at h4; cases h4
  refine ⟨rest.drop (j + 1), ?_, ?_, ?_⟩
  · have hd : rest.drop j = '"' :: rest.drop (j + 1) := by
      rw [List.drop_eq_getElem_cons hlt]
      have : rest[j] = '"' := by
        have := List.get?_eq_get hlt
        rw [this] at h4
        simpa using h4
      rw [this]
    rw [h3, ← hd, List.take_append_drop]
  · intro hnil
    have hlen : cap.length = j := by rw [h3, List.length_take]; omega
    rw [hnil] at hlen
    simp at hlen
    omega
  · intro c hc
    rw [h3] at hc
    have := take_takeWhile_all dotMatches rest j h2 c hc
    simpa [dotMatches] using this

theorem matchAt_sound (s cap : QString) (h : matchAt s = some cap) :
    ∃ post, s = versionLiteral ++ cap ++ '"' :: post ∧ cap ≠ [] ∧ ∀ c ∈ cap, c ≠ '\n' := by
  unfold matchAt at h
  cases hl : matchLiteral versionLiteral s with
  | none => simp [hl] at h
  | some rest =>
    simp only [hl, Option.some_bind] at h
    obtain ⟨post, h1, h2, h3⟩ := matchGroup_sound rest cap h
    refine ⟨post, ?_, h2, h3⟩
    rw [matchLiteral_sound _ _ _ hl, h1]
    simp

theorem regexMatch_sound (s cap : QString) (h : regexMatch s = some cap) :
    ∃ pre post, s = pre ++ versionLiteral ++ cap ++ '"' :: post ∧ cap ≠ [] ∧
      ∀ c ∈ cap, c ≠ '\n' := by
  induction s with
  | nil =>
    simp only [regexMatch] at h
    obtain ⟨post, h1, h2, h3⟩ := matchAt_sound [] cap h
    exact ⟨[], post, by simp at h1, h2, h3⟩
  | cons c cs ih =>
    simp only [regexMatch] at h
    cases hm : matchAt (c :: cs) with
    | some cap0 =>
      simp only [hm] at h
      cases h
      obtain ⟨post, h1, h2, h3⟩ := matchAt_sound (c :: cs) _ hm
      exact ⟨[], post, by simpa using h1, h2, h3⟩
    | none =>
      simp only [hm] at h
      obtain ⟨pre, post, h1, h2, h3⟩ := ih h
      exact ⟨c :: pre, post, by simp [h1], h2, h3⟩

theorem matchLiteral_append (l r : QString) : matchLiteral l (l ++ r) = some r := by
  induction l with
  | nil => cases r <;> simp [matchLiteral]
  | cons a l ih => simp [matchLiteral, ih]

theorem backtrack_complete (rest : QString) (j k : Nat) (h1 : 1 ≤ j) (h2 : j ≤ k)
    (hq : rest.get? j = some '"') : ∃ cap, backtrack rest k = some cap := by
  induction k with
  | zero => omega
  | succ k ih =>
    simp only [backtrack]
    split
    · exact ⟨_, rfl⟩
    · next hne =>
      have hjk : j ≠ k + 1 := by
        intro hjk
        rw [hjk] at hq
        exact hne hq
      exact ih (by omega)

theorem length_le_takeWhile (p : Char → Bool) (cap rest : QString)
    (h : ∀ c ∈ cap, p c = true) : cap.length ≤ ((cap ++ rest).takeWhile p).length := by
  induction cap with
  | nil => simp
  | cons a cap ih =>
    have ha : p a = true := h a (by simp)
    have := ih (fun c hc => h c (by simp [hc]))
    simp [List.takeWhile_cons, ha]
    omega

theorem matchAt_complete (cap post : QString) (h2 : cap ≠ []) (h3 : ∀ c ∈ cap, c ≠ '\n') :
    ∃ cap0, matchAt (versionLiteral ++ cap ++ '"' :: post) = some cap0 := by
  unfold matchAt
  rw [List.append_assoc, matchLiteral_append]
  simp only [Option.some_bind, matchGroup]
  apply backtrack_complete _ cap.length
  · cases cap with
    | nil => exact absurd rfl h2
    | cons a l => simp
  · apply length_le_takeWhile
    intro c hc
    simpa [dotMatches] using h3 c hc
  · rw [List.get?_eq_getElem?, List.getElem?_append_right (le_refl _)]
    simp

theorem regexMatch_complete (s : QString) (h : HasVersionMatch s) :
    ∃ cap, regexMatch s = some cap := by
  obtain ⟨pre, cap, post, h1, h2, h3⟩ := h
  subst h1
  induction pre with
  | nil =>
    obtain ⟨cap0, hc⟩ := matchAt_complete cap post h2 h3
    have hne : ([] : QString) ++ versionLiteral ++ cap ++ '"' :: post =
        'v' :: ("ersion \"".toList ++ cap ++ '"' :: post) := by
      simp [versionLiteral]
    rw [hne, regexMatch, ← hne, List.nil_append, hc]
    exact ⟨_, rfl⟩
  | cons c pre ih =>
    simp only [List.cons_append, regexMatch]
    split
    · exact ⟨_, rfl⟩
    · simpa using ih

/-- Claim C1: whenever the synchronous run of `java -version` reports failure,
`Java::version` returns the empty string, whatever text the result carries.
(The function is total: it has a value on every result, so no error is
raised.) -/
theorem version_failure (result : Result) (h : result.success = false) :
    version result = [] := by
  simp [version, h]

theorem version_failure_witness :
    (Result.mk false "java version \"1.8.0_181\"".toList).success = false ∧
      version (Result.mk false "java version \"1.8.0_181\"".toList) = [] :=
  ⟨rfl, version_failure _ rfl⟩

/-- Claim C2: when the run succeeds but its output contains no match of
`version "(.+)"` (no occurrence of `version "` followed on the same line by at
least one character and then a closing `"`), `Java::version` returns the empty
string. -/
theorem version_no_match (result : Result) (hs : result.success = true)
    (hn : ¬ HasVersionMatch result.value) : version result = [] := by
  simp only [version, hs, Bool.not_true, Bool.false_eq_true, if_false]
  cases hm : regexMatch result.value with
  | none => rfl
  | some cap =>
    exfalso
    obtain ⟨pre, post, h1, h2, h3⟩ := regexMatch_sound _ _ hm
    exact hn ⟨pre, cap, post, h1, h2, h3⟩

theorem version_no_match_witness :
    (Result.mk true "java: command not found".toList).success = true ∧
      ¬ HasVersionMatch (Result.mk true "java: command not found".toList).value ∧
      version (Result.mk true "java: command not found".toList) = [] :=
  have hn : ¬ HasVersionMatch (Result.mk true "java: command not found".toList).value :=
    fun h => by
      obtain ⟨cap, hc⟩ := regexMatch_complete _ h
      have hd : regexMatch (Result.mk true "java: command not found".toList).value = none := by
        decide
      rw [hd] at hc
      cases hc
  ⟨rfl, hn, version_no_match _ rfl hn⟩

end Java

/-! ## Theorems: loops over indices -/

/-- A loop over the first indices of a list is the fold over the elements
at these indices. -/
theorem forIndices_eq_foldl {α β : Type} (l : List α) (body : β → α → β) (init : β) (n : Nat)
    (hn : n ≤ l.length) : forIndices n l body init = (l.take n).foldl body init := by
  unfold forIndices
  induction n with
  | zero => simp
  | succ n ih =>
    have hlt : n < l.length := by omega
    rw [List.range_succ, List.foldl_append, ih (by omega), List.take_succ, List.foldl_append]
    simp [List.getElem?_eq_getElem hlt]

theorem forEachIndex_eq_foldl {α β : Type} (l : List α) (body : β → α → β) (init : β) :
    forEachIndex l body init = l.foldl body init := by
  rw [forEachIndex, forIndices_eq_foldl l body init l.length (le_refl _), List.take_length]

/-! ## Theorems: `OptionsDialog::load` and `OptionsDialog::save` -/

namespace OptionsDialog

theorem value_remove (m : ActionMap) (k key : QString) :
    (m.remove k).value key = if key = k then none else m.value key := by
  induction m with
  | nil => simp [ActionMap.remove, ActionMap.value]
  | cons e m ih =>
    simp only [ActionMap.remove, ActionMap.value] at ih ⊢
    by_cases hek : e.1 = k
    · by_cases hkey : key = k
      · simp only [List.filter_cons, hek, bne_self_eq_false, Bool.false_eq_true, if_false, hkey,
          if_true]
        simpa [hkey] using ih
      · have hne : ¬ (e.1 = key) := fun h => hkey (h.symm.trans hek)
        simp only [List.filter_cons, hek, bne_self_eq_false, Bool.false_eq_true, if_false, hkey]
        rw [List.find?_cons_of_neg _ (by simpa [hek] using fun h : k = key => hkey h.symm)]
        simpa [hkey] using ih
    · have hne : (e.1 != k) = true := by simpa using hek
      simp only [List.filter_cons, hne, if_true]
      by_cases hkey : e.1 = key
      · have hk : ¬ key = k := fun h => hek (hkey.trans h)
        simp [List.find?_cons, hkey, hk]
      · rw [List.find?_cons_of_neg _ (by simpa using hkey),
          List.find?_cons_of_neg _ (by simpa using hkey)]
        exact ih

theorem mem_remove (m : ActionMap) (k : QString) (e : QString × Option QAction)
    (h : e ∈ m.remove k) : e ∈ m := by
  simp only [ActionMap.remove, List.mem_filter] at h
  exact h.1

theorem saveToolbar_zero (used : List QListWidgetItem) :
    saveToolbar used = used.map (fun it => it.identifier) := by
  rw [saveToolbar, forEachIndex_eq_foldl]
  have h : ∀ (l : List QListWidgetItem) (acc : List QString),
      l.foldl (fun toolbar item => toolbar ++ [item.identifier]) acc =
        acc ++ l.map (fun it => it.identifier) := by
    intro l
    induction l with
    | nil => simp
    | cons a l ih => intro acc; simp [ih]
  simpa using h used []

/-- The used-list loop against the expected list: `earlier` holds the
identifiers already consumed, and the map has lost exactly those of them that
are neither separator nor spacer. -/
theorem loadUsed_identifiers (app : Application) (pool : ActionMap) (l earlier : List QString)
    (used : List QListWidgetItem) (m : ActionMap)
    (hm : ∀ k, k ≠ separatorId → k ≠ spacerId →
      m.value k = if k ∈ earlier then none else pool.value k) :
    (loadUsed app l (used, m)).1.map (fun it => it.identifier) =
      used.map (fun it => it.identifier) ++ keptToolbar pool earlier l := by
  induction l generalizing earlier used m with
  | nil => simp [loadUsed, keptToolbar]
  | cons identifier rest ih =>
    simp only [loadUsed, keptToolbar]
    by_cases h1 : identifier = separatorId
    · have hm2 : ∀ k, k ≠ separatorId → k ≠ spacerId →
          m.value k = if k ∈ earlier ++ [identifier] then none else pool.value k := by
        intro k hk1 hk2
        have hne : k ≠ identifier := fun h => hk1 (h.trans h1)
        simp [hm k hk1 hk2, hne]
      rw [if_pos h1, if_pos (Or.inl h1), ih _ _ _ hm2]
      simp [QListWidget.addItem, createToolbarSeparatorItem, h1]
    · by_cases h2 : identifier = spacerId
      · have hm2 : ∀ k, k ≠ separatorId → k ≠ spacerId →
            m.value k = if k ∈ earlier ++ [identifier] then none else pool.value k := by
          intro k hk1 hk2
          have hne : k ≠ identifier := fun h => hk2 (h.trans h2)
          simp [hm k hk1 hk2, hne]
        rw [if_neg h1, if_pos h2, if_pos (Or.inr (Or.inl h2)), ih _ _ _ hm2]
        simp [QListWidget.addItem, createToolbarSpacerItem, h2]
      · have hm2 : ∀ k, k ≠ separatorId → k ≠ spacerId →
            (m.remove identifier).value k =
              if k ∈ earlier ++ [identifier] then none else pool.value k := by
          intro k hk1 hk2
          rw [value_remove, hm k hk1 hk2]
          by_cases hk : k = identifier
          · simp [hk]
          · simp [hk]
        simp only [if_neg h1, if_neg h2, false_or]
        have hv := hm identifier h1 h2
        cases hval : m.value identifier with
        | none =>
          simp only []
          rw [ih _ _ _ hm2]
          have hkeep : ¬ ((pool.value identifier).isSome = true ∧ identifier ∉ earlier) := by
            rintro ⟨hs, hne⟩
            rw [hval, if_neg hne] at hv
            rw [← hv] at hs
            simp at hs
          simp [hkeep, h1, h2]
        | some a =>
          simp only []
          rw [ih _ _ _ hm2]
          have hkeep : (pool.value identifier).isSome = true ∧ identifier ∉ earlier := by
            by_cases hmem : identifier ∈ earlier
            · rw [hval, if_pos hmem] at hv
              cases hv
            · rw [hval, if_neg hmem] at hv
              exact ⟨by rw [← hv]; rfl, hmem⟩
          simp [hkeep, h1, h2, QListWidget.addItem]

theorem loadUsed_subset (app : Application) (l : List QString) (used : List QListWidgetItem)
    (m : ActionMap) : ∀ e ∈ (loadUsed app l (used, m)).2, e ∈ m := by
  induction l generalizing used m with
  | nil => simp [loadUsed]
  | cons identifier rest ih =>
    intro e he
    simp only [loadUsed] at he
    split at he
    · exact ih _ _ e he
    · split at he
      · exact ih _ _ e he
      · split at he
        · exact mem_remove _ _ _ (ih _ _ e he)
        · exact mem_remove _ _ _ (ih _ _ e he)

theorem loadUnused_isSome (m : ActionMap) (unused : List QListWidgetItem)
    (h : ∀ e ∈ m, e.2.isSome = true) : (loadUnused m unused).isSome = true := by
  induction m generalizing unused with
  | nil => simp [loadUnused]
  | cons e m ih =>
    obtain ⟨identifier, action⟩ := e
    cases action with
    | none => simpa using h (identifier, none) (by simp)
    | some a =>
      simp only [loadUnused]
      exact ih _ (fun e he => h e (by simp [he]))

/-- Whenever the pool `Toolbar::all()` holds no null pointer, `load` completes. -/
theorem load_completes (app : Application) (d : OptionsDialog)
    (h : ∀ e ∈ app.toolbarAll, e.2.isSome = true) : ∃ d', load app d = some d' := by
  have hs := loadUnused_isSome (loadUsed app app.settings.toolbar ([], app.toolbarAll)).2 []
    (fun e he => h e (loadUsed_subset app _ _ _ e he))
  cases hu : loadUnused (loadUsed app app.settings.toolbar ([], app.toolbarAll)).2 [] with
  | none => rw [hu] at hs; cases hs
  | some unused =>
    simp only [load, hu]
    exact ⟨_, rfl⟩

theorem load_eq_some (app : Application) (d d' : OptionsDialog) (h : load app d = some d') :
    ∃ unused, d' = { loadPages app d with
      listToolbarUsed := (loadUsed app app.settings.toolbar ([], app.toolbarAll)).1
      listToolbarUnused := unused
      emitted := (loadPages app d).emitted ++ ["loaded".toList] } := by
  unfold load at h
  cases hu : loadUnused (loadUsed app app.settings.toolbar ([], app.toolbarAll)).2 [] with
  | none => simp [hu] at h
  | some unused =>
    simp only [hu] at h
    cases h
    exact ⟨_, rfl⟩

theorem keptToolbar_clean (pool : ActionMap) (l earlier : List QString)
    (hall : ∀ identifier ∈ l, identifier = separatorId ∨ identifier = spacerId ∨
      ((pool.value identifier).isSome = true ∧ identifier ∉ earlier))
    (hnd : (l.filter (fun identifier => identifier ≠ separatorId ∧ identifier ≠ spacerId)).Nodup) :
    keptToolbar pool earlier l = l := by
  induction l generalizing earlier with
  | nil => rfl
  | cons identifier rest ih =>
    simp only [keptToolbar]
    rw [if_pos (hall identifier (by simp))]
    congr 1
    apply ih
    · intro k hk
      rcases hall k (by simp [hk]) with h | h | ⟨h1, h2⟩
      · exact Or.inl h
      · exact Or.inr (Or.inl h)
      · by_cases hs1 : k = separatorId
        · exact Or.inl hs1
        · by_cases hs2 : k = spacerId
          · exact Or.inr (Or.inl hs2)
          · refine Or.inr (Or.inr ⟨h1, ?_⟩)
            simp only [List.mem_append, List.mem_singleton, not_or]
            refine ⟨h2, ?_⟩
            rintro rfl
            have hk2 : k ∈ rest.filter
                (fun identifier => identifier ≠ separatorId ∧ identifier ≠ spacerId) := by
              simp [List.mem_filter, hk, hs1, hs2]
            simp [List.filter_cons, hs1, hs2] at hnd
            exact hnd.1 hk
    · by_cases hs : identifier ≠ separatorId ∧ identifier ≠ spacerId
      · have hd : decide (identifier ≠ separatorId ∧ identifier ≠ spacerId) = true := by
          simpa using hs
        rw [List.filter_cons, if_pos hd] at hnd
        exact (List.nodup_cons.mp hnd).2
      · have hd : ¬ decide (identifier ≠ separatorId ∧ identifier ≠ spacerId) = true := by
          simpa using hs
        rw [List.filter_cons, if_neg hd] at hnd
        exact hnd

/-- Claim C3: for every settings state, `load` followed by `save` with no edit
in between hands each setter the value its getter returned at load: the
auto-updates, decompile-sources, sign-APK and optimize-APK flags and the
apktool, output-directory, frameworks-directory, apksigner, zipalign and adb
paths.  The calls are listed in the order `save` makes them; `load` completes
whenever the action pool holds no null pointer. -/
theorem load_save_settings (app : Application) (d : OptionsDialog) :
    (∀ d', load app d = some d' →
      ∃ code limit toolbar, save d' =
        [ .setAutoUpdates app.settings.autoUpdates,
          .setLanguage code,
          .setLimit limit,
          .setApktoolPath app.settings.apktoolPath,
          .setOutputDirectory app.settings.outputDirectory,
          .setFrameworksDirectory app.settings.frameworksDirectory,
          .setDecompileSources app.settings.decompileSources,
          .setSignApk app.settings.signApk,
          .setApksignerPath app.settings.apksignerPath,
          .setOptimizeApk app.settings.optimizeApk,
          .setZipalignPath app.settings.zipalignPath,
          .setAdbPath app.settings.adbPath,
          .setToolbar toolbar,
          .emitSaved ]) ∧
    ((∀ e ∈ app.toolbarAll, e.2.isSome = true) → ∃ d', load app d = some d') := by
  refine ⟨?_, load_completes app d⟩
  intro d' h
  obtain ⟨unused, rfl⟩ := load_eq_some app d d' h
  exact ⟨_, _, _, rfl⟩

theorem load_save_settings_witness :
    (∀ e ∈ (exampleApp []).toolbarAll, e.2.isSome = true) ∧
    ∃ d', load (exampleApp []) exampleDialog = some d' ∧
      ∃ code limit toolbar, save d' =
        [ .setAutoUpdates true, .setLanguage code, .setLimit limit,
          .setApktoolPath "/opt/apktool.jar".toList, .setOutputDirectory "/tmp/out".toList,
          .setFrameworksDirectory [], .setDecompileSources false, .setSignApk true,
          .setApksignerPath [], .setOptimizeApk true,
          .setZipalignPath "/usr/bin/zipalign".toList, .setAdbPath "/usr/bin/adb".toList,
          .setToolbar toolbar, .emitSaved ] :=
  have hp : ∀ e ∈ (exampleApp []).toolbarAll, e.2.isSome = true := by decide
  have hc := (load_save_settings (exampleApp []) exampleDialog).2 hp
  ⟨hp, hc.choose, hc.choose_spec,
    (load_save_settings (exampleApp []) exampleDialog).1 hc.choose hc.choose_spec⟩

/-- Claim C4: for every stored toolbar list `L` and every action pool `P`,
`load` followed by `save` with no edit in between stores the list obtained
from `L` by keeping, in order, every separator and spacer entry and the first
occurrence of each identifier that `P` maps to a non-null action, and dropping
every other entry.  This holds of the used-list loop of `load` for every `L`
and `P`, and of `load` as a whole whenever it completes, which it does when
`P` holds no null pointer.  In particular a list made only of separators,
spacers and pairwise distinct pooled identifiers is stored unchanged. -/
theorem load_save_toolbar (app : Application) (d : OptionsDialog) :
    saveToolbar (loadUsed app app.settings.toolbar ([], app.toolbarAll)).1 =
      keptToolbar app.toolbarAll [] app.settings.toolbar ∧
    (∀ d', load app d = some d' →
      storedToolbars (save d') = [keptToolbar app.toolbarAll [] app.settings.toolbar]) ∧
    ((∀ e ∈ app.toolbarAll, e.2.isSome = true) → ∃ d', load app d = some d') ∧
    ((∀ identifier ∈ app.settings.toolbar, identifier = separatorId ∨ identifier = spacerId ∨
        (app.toolbarAll.value identifier).isSome = true) →
      (app.settings.toolbar.filter
        (fun identifier => identifier ≠ separatorId ∧ identifier ≠ spacerId)).Nodup →
      keptToolbar app.toolbarAll [] app.settings.toolbar = app.settings.toolbar) := by
  have hused : saveToolbar (loadUsed app app.settings.toolbar ([], app.toolbarAll)).1 =
      keptToolbar app.toolbarAll [] app.settings.toolbar := by
    rw [saveToolbar_zero, loadUsed_identifiers app app.toolbarAll _ [] [] app.toolbarAll
      (fun k _ _ => by simp)]
    simp
  refine ⟨hused, ?_, load_completes app d, ?_⟩
  · intro d' h
    obtain ⟨unused, rfl⟩ := load_eq_some app d d' h
    simp only [save, storedToolbars, hused]
  · intro hall hnd
    apply keptToolbar_clean _ _ _ _ hnd
    intro identifier hi
    rcases hall identifier hi with h | h | h
    · exact Or.inl h
    · exact Or.inr (Or.inl h)
    · exact Or.inr (Or.inr ⟨h, by simp⟩)

theorem load_save_toolbar_witness :
    (∀ e ∈ (exampleApp exampleToolbar).toolbarAll, e.2.isSome = true) ∧
    (∀ identifier ∈ (exampleApp exampleToolbar).settings.toolbar,
      identifier = separatorId ∨ identifier = spacerId ∨
        ((exampleApp exampleToolbar).toolbarAll.value identifier).isSome = true) ∧
    ((exampleApp exampleToolbar).settings.toolbar.filter
      (fun identifier => identifier ≠ separatorId ∧ identifier ≠ spacerId)).Nodup ∧
    ∃ d', load (exampleApp exampleToolbar) exampleDialog = some d' ∧
      storedToolbars (save d') = [exampleToolbar] := by
  have hp : ∀ e ∈ (exampleApp exampleToolbar).toolbarAll, e.2.isSome = true := by decide
  have hall : ∀ identifier ∈ (exampleApp exampleToolbar).settings.toolbar,
      identifier = separatorId ∨ identifier = spacerId ∨
        ((exampleApp exampleToolbar).toolbarAll.value identifier).isSome = true := by decide
  have hnd : ((exampleApp exampleToolbar).settings.toolbar.filter
      (fun identifier => identifier ≠ separatorId ∧ identifier ≠ spacerId)).Nodup := by decide
  obtain ⟨_, hstored, hcompl, hclean⟩ :=
    load_save_toolbar (exampleApp exampleToolbar) exampleDialog
  obtain ⟨d', hd⟩ := hcompl hp
  refine ⟨hp, hall, hnd, d', hd, ?_⟩
  rw [hstored d' hd, hclean hall hnd]
  rfl

end OptionsDialog

/-! ## Theorems: `TitleItemsModel` -/

namespace TitleItemsModel

theorem addNode_nodes (env : Platform) (filepath key : QString) (xmlNode : QDomNode)
    (m : TitleItemsModel) :
    (addNode env filepath key xmlNode m).nodes =
      m.nodes ++ (if isLabelElement key xmlNode = true then
        [⟨env.newXmlNode xmlNode true, ⟨filepath⟩⟩] else []) := by
  cases xmlNode with
  | other n d => simp [addNode, QDomNode.toElement, isLabelElement]
  | element t a c =>
    simp only [addNode, QDomNode.toElement, isLabelElement, QDomNode.nodeName]
    have hb : (decide (t = "string".toList) &&
        decide ((QDomNode.element t a c).attribute "name".toList = key)) = true ↔
        (t = "string".toList ∧ (QDomNode.element t a c).attribute "name".toList = key) := by
      rw [Bool.and_eq_true, decide_eq_true_eq, decide_eq_true_eq]
    by_cases h : t = "string".toList ∧
        (QDomNode.element t a c).attribute "name".toList = key
    · rw [if_pos h, if_pos (hb.mpr h)]
    · rw [if_neg h, if_neg (fun hd => h (hb.mp hd))]
      simp only [List.append_nil]

theorem addLoop_nodes (env : Platform) (filepath key : QString) (xmlNodes : List QDomNode)
    (m : TitleItemsModel) :
    (addLoop env filepath key xmlNodes m).nodes =
      m.nodes ++ (xmlNodes.filter (isLabelElement key)).map
        (fun element => ⟨env.newXmlNode element true, ⟨filepath⟩⟩) := by
  rw [addLoop, forEachIndex_eq_foldl]
  induction xmlNodes generalizing m with
  | nil => simp
  | cons x xs ih =>
    rw [List.foldl_cons, ih, addNode_nodes, List.filter_cons]
    by_cases hl : isLabelElement key x = true
    · simp [hl]
    · simp [hl]

theorem add_nodes (env : Platform) (m : TitleItemsModel) (filepath key : QString) :
    (add env m filepath key).nodes = m.nodes ++ labelRows env filepath key := by
  unfold add labelRows resourcesChildren
  cases hr : env.readAll filepath with
  | none => simp
  | some text => simp [addLoop_nodes]

/-- Claim C5: `add(filepath, key)` appends to the model exactly one row for each
element child of the document root `resources` whose tag name is `string` and
whose `name` attribute equals the key, in document order and each bound to
the file path; the rows that existed before keep their position and content,
and `rowCount` grows by the number of such elements, which is zero when the
file cannot be opened or has no `resources` root. -/
theorem add_rows (env : Platform) (m : TitleItemsModel) (filepath key : QString) :
    (add env m filepath key).nodes = m.nodes ++ labelRows env filepath key ∧
    (labelRows env filepath key).length =
      ((resourcesChildren env filepath).filter (isLabelElement key)).length ∧
    (∀ row ∈ labelRows env filepath key, row.file.filePath = filepath) ∧
    (∀ i, i < m.nodes.length → (add env m filepath key).nodes.get? i = m.nodes.get? i) ∧
    rowCount (add env m filepath key) = rowCount m + (labelRows env filepath key).length ∧
    (env.readAll filepath = none → rowCount (add env m filepath key) = rowCount m) ∧
    (∀ text, env.readAll filepath = some text →
      (env.setContent text).firstChildElement "resources".toList = none →
      rowCount (add env m filepath key) = rowCount m) := by
  have hn := add_nodes env m filepath key
  refine ⟨hn, by simp [labelRows], ?_, ?_, ?_, ?_, ?_⟩
  · intro row hrow
    simp only [labelRows, List.mem_map] at hrow
    obtain ⟨element, _, rfl⟩ := hrow
    rfl
  · intro i hi
    rw [hn, List.get?_eq_getElem?, List.get?_eq_getElem?, List.getElem?_append_left hi]
  · simp [rowCount, hn]
  · intro hnone
    simp [rowCount, hn, labelRows, resourcesChildren, hnone]
  · intro text hsome hroot
    simp only [rowCount, hn, labelRows, resourcesChildren, hsome, hroot, QDomElement.childNodes]
    simp

theorem add_rows_witness :
    examplePlatform.readAll "/c/res/values/locked.xml".toList = none ∧
    rowCount (add examplePlatform exampleModel "/c/res/values/locked.xml".toList
      "app_name".toList) = rowCount exampleModel ∧
    rowCount (add examplePlatform exampleModel "/c/res/values-ru-rRU/strings.xml".toList
      "app_name".toList) = rowCount exampleModel + 2 :=
  ⟨rfl,
    (add_rows examplePlatform exampleModel "/c/res/values/locked.xml".toList
      "app_name".toList).2.2.2.2.2.1 rfl,
    (add_rows examplePlatform exampleModel "/c/res/values-ru-rRU/strings.xml".toList
      "app_name".toList).2.2.2.2.1⟩

theorem setData_true (m m' : TitleItemsModel) (index : QModelIndex) (value : QVariant)
    (role : Int) (h : setData m index value role = some (true, m')) :
    index.isValid = true ∧ role = EditRole ∧
      ∃ title, m.nodes.get? index.row.toNat = some title ∧
        QVariant.differs title.node.getValue value = true ∧
        m' = { nodes := m.nodes.set index.row.toNat
                 { title with node := title.node.setValue value.toString },
               trace := m.trace ++ [.dataChanged index index] } := by
  unfold setData at h
  by_cases hc : index.isValid = true ∧ role = EditRole
  · rw [if_pos hc] at h
    refine ⟨hc.1, hc.2, ?_⟩
    cases ht : m.nodes.get? index.row.toNat with
    | none =>
      simp only [ht] at h
      cases h
    | some title =>
      simp only [ht] at h
      by_cases hd : QVariant.differs title.node.getValue value = true
      · rw [if_pos hd] at h
        simp only [Option.some.injEq, Prod.mk.injEq, true_and] at h
        exact ⟨title, rfl, hd, h.symm⟩
      · rw [if_neg hd] at h
        simp at h
  · rw [if_neg hc] at h
    simp at h

theorem index_null (m : TitleItemsModel) (row column : Int) :
    index m row column QModelIndex.null = ⟨row, column, true⟩ := rfl

/-- Claim C6: for every model, every row `r` in range and every value `v`: if
`setData` on an index in row `r` with the edit role returns true, then `data`
for the `Value` column of row `r` is `v` converted to a string, for the display
role and the edit role alike, every other row is unchanged, and `rowCount` is
unchanged. -/
theorem setData_then_data (env : Platform) (m m' : TitleItemsModel) (r : Nat) (column : Int)
    (v : QVariant) (hr : r < m.nodes.length)
    (h : setData m (index m r column QModelIndex.null) v EditRole = some (true, m')) :
    data env m' (index m' r Value QModelIndex.null) DisplayRole = some (.string v.toString) ∧
    data env m' (index m' r Value QModelIndex.null) EditRole = some (.string v.toString) ∧
    (∀ r' : Nat, r' ≠ r → m'.nodes.get? r' = m.nodes.get? r') ∧
    (∀ r' : Nat, r' ≠ r → ∀ role,
      data env m' (index m' r' Value QModelIndex.null) role =
        data env m (index m r' Value QModelIndex.null) role) ∧
    rowCount m' = rowCount m := by
  obtain ⟨_, _, title, ht, _, hm⟩ := setData_true _ _ _ _ _ h
  simp only [index_null, Int.toNat_ofNat] at ht hm
  have hrow : m'.nodes.get? r =
      some { title with node := title.node.setValue v.toString } := by
    rw [hm, List.get?_eq_getElem?]
    exact List.getElem?_set_self hr
  have hother : ∀ r' : Nat, r' ≠ r → m'.nodes.get? r' = m.nodes.get? r' := by
    intro r' hne
    rw [hm, List.get?_eq_getElem?, List.get?_eq_getElem?]
    exact List.getElem?_set_ne (Ne.symm hne)
  have hvalid : ∀ r' : Nat, (QModelIndex.mk r' Value true).isValid = true := by
    intro r'
    simp [QModelIndex.isValid, Value]
  refine ⟨?_, ?_, hother, ?_, ?_⟩
  · simp only [index_null, data, hvalid, if_true, Int.toNat_ofNat, hrow]
    simp [XmlNode.getValue, XmlNode.setValue]
  · simp only [index_null, data, hvalid, if_true, Int.toNat_ofNat, hrow]
    simp [XmlNode.getValue, XmlNode.setValue]
  · intro r' hne role
    simp only [index_null, data, hvalid, if_true, Int.toNat_ofNat, hother r' hne]
  · simp [rowCount, hm]

theorem setData_then_data_witness :
    1 < exampleModel.nodes.length ∧
    (∃ m', setData exampleModel (index exampleModel (1 : Nat) ResourcePath QModelIndex.null)
        (.string "Renamed".toList) EditRole = some (true, m') ∧
      data examplePlatform m' (index m' (1 : Nat) Value QModelIndex.null) DisplayRole =
        some (.string "Renamed".toList) ∧
      data examplePlatform m' (index m' (0 : Nat) Value QModelIndex.null) DisplayRole =
        some (.string "My App".toList)) :=
  ⟨by decide, _, rfl,
    (setData_then_data examplePlatform exampleModel _ 1 ResourcePath
      (.string "Renamed".toList) (by decide) rfl).1,
    ((setData_then_data examplePlatform exampleModel _ 1 ResourcePath
      (.string "Renamed".toList) (by decide) rfl).2.2.2.1 0 (by decide) DisplayRole).trans rfl⟩

theorem isValid_column (index : QModelIndex) (column : Int) (h1 : 0 ≤ index.column)
    (h2 : 0 ≤ column) : QModelIndex.isValid { index with column := column } = index.isValid := by
  simp [QModelIndex.isValid, h1, h2]

theorem flags_editable (m : TitleItemsModel) (index : QModelIndex) :
    flags m index &&& ItemIsEditable ≠ 0 ↔ index.column = 0 := by
  unfold flags baseFlags
  by_cases hc : index.column = 0
  · by_cases hv : index.isValid = true
    · simp only [hc, hv, if_true, iff_true]
      decide
    · simp only [hc, hv, if_true, if_false, iff_true]
      decide
  · by_cases hv : index.isValid = true
    · simp only [hc, hv, if_true, if_false, iff_false, not_not]
      decide
    · simp only [hc, hv, if_false, iff_false, not_not]
      decide

theorem setData_false (m m' : TitleItemsModel) (index : QModelIndex) (value : QVariant)
    (role : Int) (h : setData m index value role = some (false, m')) : m' = m := by
  unfold setData at h
  by_cases hc : index.isValid = true ∧ role = EditRole
  · rw [if_pos hc] at h
    cases ht : m.nodes.get? index.row.toNat with
    | none =>
      simp only [ht] at h
      cases h
    | some title =>
      simp only [ht] at h
      by_cases hd : QVariant.differs title.node.getValue value = true
      · rw [if_pos hd] at h
        simp at h
      · rw [if_neg hd] at h
        simp only [Option.some.injEq, Prod.mk.injEq, true_and] at h
        exact h.symm
  · rw [if_neg hc] at h
    simp only [Option.some.injEq, Prod.mk.injEq, true_and] at h
    exact h.symm

theorem setData_column (m : TitleItemsModel) (index : QModelIndex) (value : QVariant)
    (role : Int) (column : Int) (h1 : 0 ≤ index.column) (h2 : 0 ≤ column) :
    (setData m { index with column := column } value role).map (fun r => (r.1, r.2.nodes)) =
      (setData m index value role).map (fun r => (r.1, r.2.nodes)) := by
  have hv := isValid_column index column h1 h2
  unfold setData
  rw [hv]
  by_cases hc : index.isValid = true ∧ role = EditRole
  · rw [if_pos hc, if_pos hc]
    cases ht : m.nodes.get? index.row.toNat with
    | none => simp only [ht]
    | some title =>
      simp only [ht]
      by_cases hd : QVariant.differs title.node.getValue value = true
      · rw [if_pos hd, if_pos hd]
        rfl
      · rw [if_neg hd, if_neg hd]
  · rw [if_neg hc, if_neg hc]

theorem setData_total (m : TitleItemsModel) (index : QModelIndex) (value : QVariant)
    (role : Int) (hrange : index.isValid = true → index.row.toNat < m.nodes.length) :
    ∃ b m', setData m index value role = some (b, m') := by
  unfold setData
  by_cases hc : index.isValid = true ∧ role = EditRole
  · rw [if_pos hc]
    have hlt := hrange hc.1
    have ht : m.nodes.get? index.row.toNat = some m.nodes[index.row.toNat] := by
      simp [List.getElem?_eq_getElem hlt]
    simp only [ht]
    by_cases hd : QVariant.differs m.nodes[index.row.toNat].node.getValue value = true
    · rw [if_pos hd]
      exact ⟨_, _, rfl⟩
    · rw [if_neg hd]
      exact ⟨_, _, rfl⟩
  · rw [if_neg hc]
    exact ⟨_, _, rfl⟩

theorem setData_returns_true (m : TitleItemsModel) (index : QModelIndex) (value : QVariant)
    (role : Int) :
    (∃ m', setData m index value role = some (true, m')) ↔
      index.isValid = true ∧ role = EditRole ∧
        ∃ title, m.nodes.get? index.row.toNat = some title ∧
          QVariant.differs title.node.getValue value = true := by
  constructor
  · rintro ⟨m', h⟩
    obtain ⟨h1, h2, title, h3, h4, _⟩ := setData_true _ _ _ _ _ h
    exact ⟨h1, h2, title, h3, h4⟩
  · rintro ⟨h1, h2, title, h3, h4⟩
    refine ⟨TitleItemsModel.mk
      (m.nodes.set index.row.toNat ⟨title.node.setValue value.toString, title.file⟩)
      (m.trace ++ [.dataChanged index index]), ?_⟩
    simp only [setData, if_pos (And.intro h1 h2), h3, if_pos h4]

/-- Claim C7, as amended: `setData` returns true if and only if the index is
valid, the role is the edit role and the value differs from the current title
value of the row (for a string value: is another text); whenever it returns
false the model, its trace of notifications included, is unchanged; writing the
same string value twice returns true and then false; the result and the rows
after the call do not depend on the column of the index, although `flags`
marks only column 0 editable.  The call has a result whenever the row of a
valid index is in range. -/
theorem setData_result (m : TitleItemsModel) (index : QModelIndex) (value : QVariant)
    (role : Int) :
    ((∃ m', setData m index value role = some (true, m')) ↔
      index.isValid = true ∧ role = EditRole ∧
        ∃ title, m.nodes.get? index.row.toNat = some title ∧
          QVariant.differs title.node.getValue value = true) ∧
    (∀ s title, value = .string s → m.nodes.get? index.row.toNat = some title →
      ((∃ m', setData m index value role = some (true, m')) ↔
        index.isValid = true ∧ role = EditRole ∧ title.node.getValue ≠ s)) ∧
    (∀ m', setData m index value role = some (false, m') → m' = m) ∧
    (∀ m' s, value = .string s → setData m index value role = some (true, m') →
      setData m' index value role = some (false, m')) ∧
    (∀ column, 0 ≤ index.column → 0 ≤ column →
      (setData m { index with column := column } value role).map (fun r => (r.1, r.2.nodes)) =
        (setData m index value role).map (fun r => (r.1, r.2.nodes))) ∧
    (flags m index &&& ItemIsEditable ≠ 0 ↔ index.column = 0) ∧
    ((index.isValid = true → index.row.toNat < m.nodes.length) →
      ∃ b m', setData m index value role = some (b, m')) := by
  refine ⟨setData_returns_true m index value role, ?_,
    fun m' => setData_false m m' index value role, ?_,
    setData_column m index value role, flags_editable m index,
    setData_total m index value role⟩
  · intro s title hval ht
    rw [setData_returns_true]
    constructor
    · rintro ⟨h1, h2, title', ht', hd⟩
      rw [ht] at ht'
      cases ht'
      rw [hval] at hd
      simp only [QVariant.differs, bne_iff_ne, ne_eq] at hd
      exact ⟨h1, h2, hd⟩
    · rintro ⟨h1, h2, hne⟩
      refine ⟨h1, h2, title, ht, ?_⟩
      rw [hval]
      simpa [QVariant.differs] using hne
  · intro m' s hval h
    obtain ⟨hv, hr, title, ht, _, hm⟩ := setData_true _ _ _ _ _ h
    have hlt : index.row.toNat < m.nodes.length := by
      rcases Nat.lt_or_ge index.row.toNat m.nodes.length with hlt | hge
      · exact hlt
      · rw [List.get?_eq_getElem?, List.getElem?_eq_none hge] at ht
        cases ht
    have hrow : m'.nodes.get? index.row.toNat =
        some { title with node := title.node.setValue value.toString } := by
      rw [hm, List.get?_eq_getElem?]
      exact List.getElem?_set_self hlt
    simp only [setData, if_pos (And.intro hv hr), hrow]
    rw [if_neg]
    simp [hval, QVariant.differs, QVariant.toString, XmlNode.getValue, XmlNode.setValue]

theorem setData_result_witness :
    ((index exampleModel 0 ResourceLanguage QModelIndex.null).isValid = true →
      (index exampleModel 0 ResourceLanguage QModelIndex.null).row.toNat <
        exampleModel.nodes.length) ∧
    ∃ m', setData exampleModel (index exampleModel 0 ResourceLanguage QModelIndex.null)
        (.string "Renamed".toList) EditRole = some (true, m') ∧
      setData m' (index exampleModel 0 ResourceLanguage QModelIndex.null)
        (.string "Renamed".toList) EditRole = some (false, m') := by
  have hr : (index exampleModel 0 ResourceLanguage QModelIndex.null).isValid = true →
      (index exampleModel 0 ResourceLanguage QModelIndex.null).row.toNat <
        exampleModel.nodes.length := fun _ => by decide
  obtain ⟨_, _, _, htwice, _, _, htotal⟩ :=
    setData_result exampleModel (index exampleModel 0 ResourceLanguage QModelIndex.null)
      (.string "Renamed".toList) EditRole
  obtain ⟨b, m', hs⟩ := htotal hr
  have hb : b = true := by
    have he : (setData exampleModel (index exampleModel 0 ResourceLanguage QModelIndex.null)
        (.string "Renamed".toList) EditRole).map Prod.fst = some true := rfl
    rw [hs] at he
    simpa using he
  subst hb
  exact ⟨hr, m', hs, htwice m' _ rfl hs⟩

/-- Counterexample to claim C7 as stated: the invalid variant differs from
every title value, so writing it twice to the same cell returns true both
times (and emits `dataChanged` both times). -/
theorem setData_invalid_twice :
    (setData exampleModel (index exampleModel 0 Value QModelIndex.null)
        .invalid EditRole).map Prod.fst = some true ∧
    ((setData exampleModel (index exampleModel 0 Value QModelIndex.null)
        .invalid EditRole).bind
      (fun r => setData r.2 (index exampleModel 0 Value QModelIndex.null)
        .invalid EditRole)).map Prod.fst = some true := by
  decide

theorem add_trace (env : Platform) (m : TitleItemsModel) (filepath key : QString) :
    ∀ ev ∈ (add env m filepath key).trace,
      ev ∈ m.trace ∨ ev = .addCalled filepath key ∨ ∀ f k, ev ≠ .addCalled f k := by
  have hnode : ∀ (x : QDomNode) (m0 : TitleItemsModel),
      ∀ ev ∈ (addNode env filepath key x m0).trace,
        ev ∈ m0.trace ∨ ∀ f k, ev ≠ .addCalled f k := by
    intro x m0 ev hev
    unfold addNode at hev
    split at hev
    · split at hev
      · simp only [List.mem_append, List.mem_cons, List.mem_singleton, List.not_mem_nil,
          or_false] at hev
        rcases hev with h | h | h
        · exact Or.inl h
        · exact Or.inr (fun f k => by rw [h]; simp)
        · exact Or.inr (fun f k => by rw [h]; simp)
      · exact Or.inl hev
    · simp only [List.mem_append, List.mem_singleton] at hev
      rcases hev with h | h
      · exact Or.inl h
      · exact Or.inr (fun f k => by rw [h]; simp)
  have hloop : ∀ (xs : List QDomNode) (m0 : TitleItemsModel),
      ∀ ev ∈ (xs.foldl (fun m xmlNode => addNode env filepath key xmlNode m) m0).trace,
        ev ∈ m0.trace ∨ ∀ f k, ev ≠ .addCalled f k := by
    intro xs
    induction xs with
    | nil => intro m0 ev hev; exact Or.inl hev
    | cons x xs ih =>
      intro m0 ev hev
      rcases ih _ ev hev with h | h
      · exact hnode x m0 ev h
      · exact Or.inr h
  intro ev hev
  unfold add at hev
  have hfirst : ∀ ev, ev ∈ m.trace ++ [ModelEvent.addCalled filepath key, .openFile filepath] →
      ev ∈ m.trace ∨ ev = .addCalled filepath key ∨ ∀ f k, ev ≠ .addCalled f k := by
    intro ev hev
    simp only [List.mem_append, List.mem_cons, List.mem_singleton, List.not_mem_nil,
      or_false] at hev
    rcases hev with h | h | h
    · exact Or.inl h
    · exact Or.inr (Or.inl h)
    · exact Or.inr (Or.inr (fun f k => by rw [h]; simp))
  cases hr : env.readAll filepath with
  | none =>
    simp only [hr] at hev
    exact hfirst ev hev
  | some text =>
    simp only [hr, addLoop, forEachIndex_eq_foldl] at hev
    rcases hloop _ _ ev hev with h | h
    · exact hfirst ev h
    · exact Or.inr (Or.inr h)

theorem addFiles_trace (env : Platform) (key : QString) (files : List QString)
    (m : TitleItemsModel) :
    ∀ ev ∈ (addFiles env key files m).trace,
      ev ∈ m.trace ∨ (∃ f, ev = .addCalled f key) ∨ ∀ f k, ev ≠ .addCalled f k := by
  induction files generalizing m with
  | nil => intro ev hev; exact Or.inl hev
  | cons file rest ih =>
    intro ev hev
    rcases ih _ ev hev with h | h | h
    · rcases add_trace env m file key ev h with h | h | h
      · exact Or.inl h
      · exact Or.inr (Or.inl ⟨file, h⟩)
      · exact Or.inr (Or.inr h)
    · exact Or.inr (Or.inl h)
    · exact Or.inr (Or.inr h)

theorem addDirectories_trace (env : Platform) (contentsPath key : QString)
    (paths : List QString) (m : TitleItemsModel) :
    ∀ ev ∈ (addDirectories env contentsPath key paths m).trace,
      ev ∈ m.trace ∨ (∃ f, ev = .addCalled f key) ∨ ∀ f k, ev ≠ .addCalled f k := by
  induction paths generalizing m with
  | nil => intro ev hev; exact Or.inl hev
  | cons path rest ih =>
    intro ev hev
    simp only [addDirectories] at hev
    split at hev
    · rcases ih _ ev hev with h | h | h
      · rcases addFiles_trace env key _ _ ev h with h | h | h
        · simp only [List.mem_append, List.mem_singleton] at h
          rcases h with h | h
          · exact Or.inl h
          · exact Or.inr (Or.inr (fun f k => by rw [h]; simp))
        · exact Or.inr (Or.inl h)
        · exact Or.inr (Or.inr h)
      · exact Or.inr (Or.inl h)
      · exact Or.inr (Or.inr h)
    · exact ih _ ev hev

/-- Claim C9: when the label attribute of the first scope of the manifest does
not start with `@string/`, the constructed model has no row and nothing of the
file system is read (the trace is empty); when it does, the constructor
completes and the key passed to every call of `add` is the label without its
first 8 characters, so that `@string/app_name` gives `app_name` and `@string/`
gives the empty key. -/
theorem new_label (env : Platform) (contentsPath : QString) (scope : ManifestScope)
    (scopes : List ManifestScope) :
    ("@string/".toList.isPrefixOf scope.label = false →
      new env ⟨⟨scope :: scopes⟩, contentsPath⟩ = some ⟨[], []⟩) ∧
    ("@string/".toList.isPrefixOf scope.label = true →
      ∃ m, new env ⟨⟨scope :: scopes⟩, contentsPath⟩ = some m ∧
        (∀ f k, ModelEvent.addCalled f k ∈ m.trace → k = scope.label.drop 8) ∧
        "@string/".toList ++ scope.label.drop 8 = scope.label) ∧
    ("@string/app_name".toList).drop 8 = "app_name".toList ∧
    ("@string/".toList).drop 8 = [] := by
  refine ⟨?_, ?_, by decide, by decide⟩
  · intro h
    simp only [new, h, Bool.not_false, if_true]
  · intro h
    have hnew : new env ⟨⟨scope :: scopes⟩, contentsPath⟩ =
        some (addDirectories env contentsPath (scope.label.drop 8)
          (env.directories (contentsPath ++ "/res/".toList))
          ⟨[], [.iterateDirectories (contentsPath ++ "/res/".toList)]⟩) := by
      simp only [new, h, Bool.not_true, Bool.false_eq_true, if_false]
      rfl
    refine ⟨_, hnew, ?_, ?_⟩
    · intro f k hmem
      rcases addDirectories_trace env contentsPath _ _ _ _ hmem with h1 | ⟨f', h1⟩ | h1
      · simp at h1
      · simp only [ModelEvent.addCalled.injEq] at h1
        rw [h1.2]
      · exact absurd rfl (h1 f k)
    · obtain ⟨t, ht⟩ := List.isPrefixOf_iff_prefix.mp h
      rw [← ht]
      simp

theorem new_label_witness :
    ("@string/".toList.isPrefixOf (ManifestScope.mk "My App".toList).label = false ∧
      new examplePlatform ⟨⟨[⟨"My App".toList⟩]⟩, "/c".toList⟩ = some ⟨[], []⟩) ∧
    ("@string/".toList.isPrefixOf (ManifestScope.mk "@string/app_name".toList).label = true ∧
      ∃ m, new examplePlatform ⟨⟨[⟨"@string/app_name".toList⟩]⟩, "/c".toList⟩ = some m ∧
        ModelEvent.addCalled "/c/res/values/strings.xml".toList "app_name".toList ∈ m.trace ∧
        ∀ f k, ModelEvent.addCalled f k ∈ m.trace → k = "app_name".toList) := by
  refine ⟨⟨by decide,
    (new_label examplePlatform "/c".toList ⟨"My App".toList⟩ []).1 (by decide)⟩, by decide, ?_⟩
  obtain ⟨m, hm, hkey, _⟩ :=
    (new_label examplePlatform "/c".toList ⟨"@string/app_name".toList⟩ []).2.1 (by decide)
  refine ⟨m, hm, ?_, hkey⟩
  have hcalled : ((new examplePlatform ⟨⟨[⟨"@string/app_name".toList⟩]⟩, "/c".toList⟩).map
      (fun m => decide (ModelEvent.addCalled "/c/res/values/strings.xml".toList
        "app_name".toList ∈ m.trace))) = some true := by
    decide
  rw [hm] at hcalled
  simpa using hcalled

/-- Claim C10: for a valid index whose row is in range, `data` returns, for the
display role and the edit role alike, the title value of the row in column
`Value`, the language name of the file in column `ResourceLanguage`, its
readable qualifiers in column `ResourceQualifiers` and its file path in column
`ResourcePath`; for the decoration role the language icon in column
`ResourceLanguage` and an empty variant in every other column; and an empty
variant for any other role, for any column outside these four, and for an
invalid index. -/
theorem data_cells (env : Platform) (m : TitleItemsModel) (index : QModelIndex) (role : Int)
    (title : TitleNode) (hv : index.isValid = true)
    (ht : m.nodes.get? index.row.toNat = some title) :
    ((role = DisplayRole ∨ role = EditRole) →
      (index.column = Value → data env m index role = some (.string title.node.getValue)) ∧
      (index.column = ResourceLanguage →
        data env m index role = some (.string (title.file.getLanguageName env))) ∧
      (index.column = ResourceQualifiers →
        data env m index role = some (.string (title.file.getReadableQualifiers env))) ∧
      (index.column = ResourcePath →
        data env m index role = some (.string title.file.getFilePath)) ∧
      (index.column ≠ Value → index.column ≠ ResourceLanguage →
        index.column ≠ ResourceQualifiers → index.column ≠ ResourcePath →
        data env m index role = some .invalid)) ∧
    (role = DecorationRole →
      (index.column = ResourceLanguage →
        data env m index role = some (.icon (title.file.getLanguageIcon env))) ∧
      (index.column ≠ ResourceLanguage → data env m index role = some .invalid)) ∧
    (role ≠ DisplayRole → role ≠ EditRole → role ≠ DecorationRole →
      data env m index role = some .invalid) ∧
    (∀ (other : QModelIndex) (r : Int), other.isValid = false →
      data env m other r = some .invalid) := by
  refine ⟨?_, ?_, ?_, ?_⟩
  · intro hrole
    refine ⟨?_, ?_, ?_, ?_, ?_⟩
    · intro hc
      simp only [data, hv, if_true, ht, hrole, hc]
    · intro hc
      simp only [data, hv, if_true, ht, hrole, hc]
      rfl
    · intro hc
      simp only [data, hv, if_true, ht, hrole, hc]
      rfl
    · intro hc
      simp only [data, hv, if_true, ht, hrole, hc]
      rfl
    · intro h1 h2 h3 h4
      simp only [data, hv, if_true, ht, hrole, h1, h2, h3, h4, if_false]
  · intro hrole
    subst hrole
    have hnot : ¬ (DecorationRole = DisplayRole ∨ DecorationRole = EditRole) := by decide
    refine ⟨?_, ?_⟩
    · intro hc
      simp only [data, hv, if_true, ht, hnot, if_false, hc]
    · intro hc
      simp only [data, hv, if_true, ht, hnot, if_false, hc]
  · intro h1 h2 h3
    simp only [data, hv, if_true, ht, h1, h2, h3, or_self, if_false]
  · intro other r ho
    simp only [data, ho, Bool.false_eq_true, if_false]

theorem data_cells_witness :
    (index exampleModel 1 ResourceLanguage QModelIndex.null).isValid = true ∧
    (∃ title, exampleModel.nodes.get?
        (index exampleModel 1 ResourceLanguage QModelIndex.null).row.toNat = some title ∧
      data examplePlatform exampleModel (index exampleModel 1 ResourceLanguage QModelIndex.null)
        DecorationRole = some (.icon (title.file.getLanguageIcon examplePlatform)) ∧
      data examplePlatform exampleModel (index exampleModel 1 ResourceLanguage QModelIndex.null)
        EditRole = some (.string (title.file.getLanguageName examplePlatform))) :=
  ⟨by decide, _, rfl,
    ((data_cells examplePlatform exampleModel
      (index exampleModel 1 ResourceLanguage QModelIndex.null) DecorationRole _
      (by decide) rfl).2.1 rfl).1 rfl,
    ((data_cells examplePlatform exampleModel
      (index exampleModel 1 ResourceLanguage QModelIndex.null) EditRole _
      (by decide) rfl).1 (Or.inr rfl)).2.1 rfl⟩

end TitleItemsModel

/-! ## Theorems: `MainWindow::closeEvent` -/

namespace MainWindow

/-- Claim C8: `closeEvent` accepts the close event if and only if there are no
unsaved projects or the user answers Discard to the question; the geometry and
the state of the window are written to the settings (`saveSettings`) exactly
when the event is accepted; when the user does not answer Discard the event is
ignored and the settings are unchanged; and the question is asked only when
there are unsaved projects. -/
theorem closeEvent_accepts (w : MainWindow) (answer : Int) (event : QCloseEvent) :
    ((closeEvent w answer event).2.accepted = true ↔
      (w.hasUnsavedProjects = false ∨ answer = Discard)) ∧
    ((closeEvent w answer event).2.accepted = true →
      (closeEvent w answer event).1.settings = ⟨w.saveGeometry, w.saveState⟩) ∧
    ((closeEvent w answer event).2.accepted = false →
      (closeEvent w answer event).1.settings = w.settings) ∧
    (w.hasUnsavedProjects = true → answer ≠ Discard →
      (closeEvent w answer event).2.accepted = false ∧
      (closeEvent w answer event).1.settings = w.settings) ∧
    (closeEvent w answer event).1.calls =
      w.calls ++ (if w.hasUnsavedProjects = true then [.question unsavedQuestion] else []) ++
        (if (closeEvent w answer event).2.accepted = true then
          [.setMainWindowGeometry w.saveGeometry, .setMainWindowState w.saveState] else []) ∧
    (WindowCall.question unsavedQuestion ∈
        (closeEvent w answer event).1.calls.drop w.calls.length ↔
      w.hasUnsavedProjects = true) := by
  cases hu : w.hasUnsavedProjects
  · simp [closeEvent, hu, saveSettings, QCloseEvent.accept,
      WindowSettings.setMainWindowGeometry, WindowSettings.setMainWindowState]
  · by_cases ha : answer = Discard
    · simp [closeEvent, hu, ha, saveSettings, QCloseEvent.accept,
        WindowSettings.setMainWindowGeometry, WindowSettings.setMainWindowState]
    · simp [closeEvent, hu, ha, QCloseEvent.ignore]

theorem closeEvent_accepts_witness :
    exampleWindow.hasUnsavedProjects = true ∧ Cancel ≠ Discard ∧
    (closeEvent exampleWindow Cancel ⟨true⟩).2.accepted = false ∧
    (closeEvent exampleWindow Cancel ⟨true⟩).1.settings = exampleWindow.settings ∧
    (closeEvent exampleWindow Discard ⟨false⟩).1.settings = ⟨[1, 2, 3], [4, 5]⟩ :=
  ⟨rfl, by decide,
    ((closeEvent_accepts exampleWindow Cancel ⟨true⟩).2.2.2.1 rfl (by decide)).1,
    ((closeEvent_accepts exampleWindow Cancel ⟨true⟩).2.2.2.1 rfl (by decide)).2,
    (closeEvent_accepts exampleWindow Discard ⟨false⟩).2.1 (by decide)⟩

end MainWindow

/-! ## Theorems: the recent-files limit of the options dialog -/

namespace OptionsDialog

theorem createWidgets_spinbox : createWidgets.spinboxRecent = ⟨0, 50, 0⟩ := by decide

theorem setValue_bounds (sb : QSpinBox) (v : Int) (h : sb.minimum ≤ sb.maximum) :
    (sb.setValue v).minimum = sb.minimum ∧ (sb.setValue v).maximum = sb.maximum ∧
      sb.minimum ≤ (sb.setValue v).value ∧ (sb.setValue v).value ≤ sb.maximum := by
  refine ⟨rfl, rfl, ?_, ?_⟩
  · simp only [QSpinBox.setValue]
    omega
  · simp only [QSpinBox.setValue]
    omega

theorem load_spinbox (app : Application) (d d' : OptionsDialog) (h : load app d = some d') :
    d'.spinboxRecent = d.spinboxRecent.setValue app.settings.recentLimit := by
  obtain ⟨unused, rfl⟩ := load_eq_some app d d' h
  rfl

theorem usedDoubleClicked_spinbox (d d' : OptionsDialog) (row : Nat)
    (h : usedDoubleClicked d row = some d') : d'.spinboxRecent = d.spinboxRecent := by
  unfold usedDoubleClicked at h
  cases hi : d.listToolbarUsed.get? row with
  | none => simp only [hi] at h; cases h
  | some item =>
    simp only [hi] at h
    split at h
    · cases h
      rfl
    · cases h
      rfl

theorem unusedDoubleClicked_spinbox (d d' : OptionsDialog) (row : Nat)
    (h : unusedDoubleClicked d row = some d') : d'.spinboxRecent = d.spinboxRecent := by
  unfold unusedDoubleClicked at h
  cases hi : d.listToolbarUnused.get? row with
  | none => simp only [hi] at h; cases h
  | some item =>
    simp only [hi] at h
    split at h
    · cases h
      rfl
    · cases h
      rfl

/-- The range of the spin box and the bounds of its value are kept by every
event. -/
theorem handleAll_spinbox (d d' : OptionsDialog) (events : List DialogEvent)
    (hmin : d.spinboxRecent.minimum = 0) (hmax : d.spinboxRecent.maximum = 50)
    (hlo : 0 ≤ d.spinboxRecent.value) (hhi : d.spinboxRecent.value ≤ 50)
    (h : handleAll d events = some d') :
    d'.spinboxRecent.minimum = 0 ∧ d'.spinboxRecent.maximum = 50 ∧
      0 ≤ d'.spinboxRecent.value ∧ d'.spinboxRecent.value ≤ 50 := by
  induction events generalizing d with
  | nil =>
    simp only [handleAll, Option.some.injEq] at h
    subst h
    exact ⟨hmin, hmax, hlo, hhi⟩
  | cons event rest ih =>
    simp only [handleAll] at h
    cases hn : handle d event with
    | none => simp only [hn] at h; cases h
    | some next =>
      simp only [hn] at h
      have hnext : next.spinboxRecent.minimum = 0 ∧ next.spinboxRecent.maximum = 50 ∧
          0 ≤ next.spinboxRecent.value ∧ next.spinboxRecent.value ≤ 50 := by
        cases event with
        | recentEdited value =>
          simp only [handle, Option.some.injEq] at hn
          subst hn
          have hb := setValue_bounds d.spinboxRecent value (by omega)
          rw [hmin, hmax] at hb
          exact hb
        | usedDoubleClicked row =>
          rw [usedDoubleClicked_spinbox d next row hn]
          exact ⟨hmin, hmax, hlo, hhi⟩
        | unusedDoubleClicked row =>
          rw [unusedDoubleClicked_spinbox d next row hn]
          exact ⟨hmin, hmax, hlo, hhi⟩
      exact ih next hnext.1 hnext.2.1 hnext.2.2.1 hnext.2.2.2 h

/-- Claim C11: the limit that `save` passes to `Recent::setLimit` is always
between 0 and 50: after `initialize` and any sequence of edits of the dialog it
is a single value in that range; after `load` followed by `save` with no edit
it is the stored limit clamped to the range 0 to 50, which is the stored limit
exactly when that lies in the range.  The dialog is created whenever the
action pool holds no null pointer. -/
theorem recent_limit (app : Application) :
    (∀ d0 events d, initializeDialog app = some d0 → handleAll d0 events = some d →
      ∃ limit, savedLimits (save d) = [limit] ∧ 0 ≤ limit ∧ limit ≤ 50) ∧
    (∀ d d', d.spinboxRecent.minimum = 0 → d.spinboxRecent.maximum = 50 →
      load app d = some d' →
      savedLimits (save d') = [min 50 (max 0 app.settings.recentLimit)]) ∧
    (∀ d', initializeDialog app = some d' →
      savedLimits (save d') = [min 50 (max 0 app.settings.recentLimit)]) ∧
    (min 50 (max 0 app.settings.recentLimit) = app.settings.recentLimit ↔
      0 ≤ app.settings.recentLimit ∧ app.settings.recentLimit ≤ 50) ∧
    ((∀ e ∈ app.toolbarAll, e.2.isSome = true) → ∃ d0, initializeDialog app = some d0) := by
  have hload : ∀ d d', d.spinboxRecent.minimum = 0 → d.spinboxRecent.maximum = 50 →
      load app d = some d' →
      d'.spinboxRecent.value = min 50 (max 0 app.settings.recentLimit) ∧
      d'.spinboxRecent.minimum = 0 ∧ d'.spinboxRecent.maximum = 50 := by
    intro d d' hmin hmax h
    rw [load_spinbox app d d' h]
    simp only [QSpinBox.setValue, hmin, hmax, and_self]
  refine ⟨?_, ?_, ?_, ?_, load_completes app createWidgets⟩
  · intro d0 events d h0 hrun
    obtain ⟨hv, hmin, hmax⟩ := hload createWidgets d0 (by decide) (by decide) h0
    have hb := handleAll_spinbox d0 d events hmin hmax (by omega) (by omega) hrun
    exact ⟨d.spinboxRecent.value, rfl, hb.2.2.1, hb.2.2.2⟩
  · intro d d' hmin hmax h
    obtain ⟨hv, _, _⟩ := hload d d' hmin hmax h
    simp only [save, savedLimits, hv]
  · intro d' h
    obtain ⟨hv, _, _⟩ := hload createWidgets d' (by decide) (by decide) h
    simp only [save, savedLimits, hv]
  · omega

theorem recent_limit_witness :
    (∀ e ∈ (exampleApp exampleToolbar).toolbarAll, e.2.isSome = true) ∧
    ∃ d0, initializeDialog (exampleApp exampleToolbar) = some d0 ∧
      savedLimits (save d0) = [10] ∧
      ∀ d, handleAll d0 [.recentEdited 77, .unusedDoubleClicked 0] = some d →
        ∃ limit, savedLimits (save d) = [limit] ∧ 0 ≤ limit ∧ limit ≤ 50 := by
  have hp : ∀ e ∈ (exampleApp exampleToolbar).toolbarAll, e.2.isSome = true := by decide
  obtain ⟨hall, _, hinit, _, hcompl⟩ := recent_limit (exampleApp exampleToolbar)
  obtain ⟨d0, hd0⟩ := hcompl hp
  exact ⟨hp, d0, hd0, hinit d0 hd0, fun d hd => hall d0 _ d hd0 hd⟩

end OptionsDialog

/-! ## Theorems: the leftmost, greedy match of `Java::version` -/

namespace Java

theorem takeWhile_append_of_all (p : Char → Bool) (l r : QString)
    (h : ∀ c ∈ l, p c = true) : (l ++ r).takeWhile p = l ++ r.takeWhile p := by
  induction l with
  | nil => rfl
  | cons first others ih =>
    obtain ⟨hfirst, hothers⟩ := List.forall_mem_cons.mp h
    rw [List.cons_append, List.takeWhile_cons, hfirst, ih hothers]
    rfl

theorem get_takeWhile_length (p : Char → Bool) (l : QString) (c : Char)
    (h : l.get? (l.takeWhile p).length = some c) : p c = false := by
  induction l with
  | nil => simp at h
  | cons a l ih =>
    by_cases ha : p a = true
    · simp only [List.takeWhile_cons, ha, if_true, List.length_cons, List.get?_cons_succ] at h
      exact ih h
    · simp only [List.takeWhile_cons, ha, Bool.false_eq_true, if_false, List.length_nil,
        List.get?_cons_zero, Option.some.injEq] at h
      rw [← h]
      simpa using ha

theorem get_takeWhile_lt (p : Char → Bool) (l : QString) (t : Nat) (c : Char)
    (ht : t < (l.takeWhile p).length) (h : l.get? t = some c) : c ∈ l.takeWhile p := by
  induction l generalizing t with
  | nil => simp at h
  | cons a l ih =>
    by_cases ha : p a = true
    · simp only [List.takeWhile_cons, ha, if_true, List.length_cons] at ht ⊢
      cases t with
      | zero =>
        simp only [List.get?_cons_zero, Option.some.injEq] at h
        simp [h]
      | succ t =>
        simp only [List.get?_cons_succ] at h
        exact List.mem_cons_of_mem _ (ih t (by omega) h)
    · simp [List.takeWhile_cons, ha] at ht

/-- The backtracking returns the text before the last quote at an index between
1 and `k`. -/
theorem backtrack_greatest (rest : QString) (j k : Nat) (h1 : 1 ≤ j) (h2 : j ≤ k)
    (hq : rest.get? j = some '"')
    (hmax : ∀ i, j < i → i ≤ k → rest.get? i ≠ some '"') :
    backtrack rest k = some (rest.take j) := by
  induction k with
  | zero => omega
  | succ k ih =>
    simp only [backtrack]
    by_cases hjk : j = k + 1
    · rw [← hjk, if_pos hq]
    · rw [if_neg (hmax (k + 1) (by omega) (le_refl _))]
      exact ih (by omega) (fun i hi1 hi2 => hmax i hi1 (by omega))

theorem backtrack_sound_greatest (rest cap : QString) (k : Nat)
    (h : backtrack rest k = some cap) :
    ∃ j, 1 ≤ j ∧ j ≤ k ∧ cap = rest.take j ∧ rest.get? j = some '"' ∧
      ∀ i, j < i → i ≤ k → rest.get? i ≠ some '"' := by
  induction k with
  | zero => simp [backtrack] at h
  | succ k ih =>
    simp only [backtrack] at h
    split at h
    · next hq =>
      refine ⟨k + 1, by omega, le_refl _, ?_, hq, fun i hi1 hi2 => by omega⟩
      simpa using h.symm
    · next hne =>
      obtain ⟨j, h1, h2, h3, h4, h5⟩ := ih h
      refine ⟨j, h1, by omega, h3, h4, ?_⟩
      intro i hi1 hi2
      by_cases hik : i = k + 1
      · rw [hik]
        exact hne
      · exact h5 i hi1 (by omega)

theorem get_of_takeWhile (p : Char → Bool) (l : QString) (t : Nat) (c : Char)
    (h : (l.takeWhile p).get? t = some c) : l.get? t = some c := by
  induction l generalizing t with
  | nil => simp at h
  | cons a l ih =>
    by_cases ha : p a = true
    · simp only [List.takeWhile_cons, ha, if_true] at h
      cases t with
      | zero => simpa using h
      | succ t =>
        simp only [List.get?_cons_succ] at h ⊢
        exact ih t h
    · simp [List.takeWhile_cons, ha] at h

/-- The index of a character that follows the quote which closes the group. -/
theorem get_after_quote (cap post : QString) (t : Nat) :
    (cap ++ '"' :: post).get? (cap.length + 1 + t) = post.get? t := by
  rw [List.get?_eq_getElem?, List.get?_eq_getElem?,
    List.getElem?_append_right (by omega)]
  have : cap.length + 1 + t - cap.length = t + 1 := by omega
  rw [this, List.getElem?_cons_succ]

theorem takeWhile_group (cap post : QString) (h3 : ∀ c ∈ cap, c ≠ '\n') :
    (cap ++ '"' :: post).takeWhile dotMatches = cap ++ '"' :: post.takeWhile dotMatches := by
  rw [takeWhile_append_of_all dotMatches cap _ (fun c hc => by simpa [dotMatches] using h3 c hc)]
  have hq : dotMatches '"' = true := by decide
  simp only [List.takeWhile_cons, hq, if_true]

/-- The part `(.+)"` of the pattern takes the text before the last quote of the
line. -/
theorem matchGroup_greedy (cap post : QString) (h2 : cap ≠ []) (h3 : ∀ c ∈ cap, c ≠ '\n')
    (h4 : ∀ c ∈ post.takeWhile dotMatches, c ≠ '"') :
    matchGroup (cap ++ '"' :: post) = some cap := by
  unfold matchGroup
  rw [takeWhile_group cap post h3]
  have hlen : (cap ++ '"' :: post.takeWhile dotMatches).length =
      cap.length + 1 + (post.takeWhile dotMatches).length := by
    simp only [List.length_append, List.length_cons]
    omega
  rw [hlen]
  have hpos : 1 ≤ cap.length := by
    cases cap with
    | nil => exact absurd rfl h2
    | cons a l => simp
  have hq : (cap ++ '"' :: post).get? cap.length = some '"' := by
    rw [List.get?_eq_getElem?, List.getElem?_append_right (le_refl _)]
    simp
  have hmax : ∀ i, cap.length < i → i ≤ cap.length + 1 + (post.takeWhile dotMatches).length →
      (cap ++ '"' :: post).get? i ≠ some '"' := by
    intro i hi1 hi2 hget
    obtain ⟨t, rfl⟩ : ∃ t, i = cap.length + 1 + t := ⟨i - cap.length - 1, by omega⟩
    rw [get_after_quote] at hget
    by_cases ht : t < (post.takeWhile dotMatches).length
    · exact h4 '"' (get_takeWhile_lt dotMatches post t '"' ht hget) rfl
    · have hteq : t = (post.takeWhile dotMatches).length := by omega
      rw [hteq] at hget
      have := get_takeWhile_length dotMatches post '"' hget
      revert this
      decide
  rw [backtrack_greatest _ cap.length _ hpos (by omega) hq hmax, List.take_left]

theorem matchGroup_sound_greedy (rest cap : QString) (h : matchGroup rest = some cap) :
    ∃ post, rest = cap ++ '"' :: post ∧ cap ≠ [] ∧ (∀ c ∈ cap, c ≠ '\n') ∧
      ∀ c ∈ post.takeWhile dotMatches, c ≠ '"' := by
  obtain ⟨post, hrest, h2, h3⟩ := matchGroup_sound rest cap h
  refine ⟨post, hrest, h2, h3, ?_⟩
  subst hrest
  unfold matchGroup at h
  rw [takeWhile_group cap post h3] at h
  obtain ⟨j, _, hj2, hj3, _, hmax⟩ := backtrack_sound_greatest _ _ _ h
  have hlen : (cap ++ '"' :: post.takeWhile dotMatches).length =
      cap.length + 1 + (post.takeWhile dotMatches).length := by
    simp only [List.length_append, List.length_cons]
    omega
  rw [hlen] at hj2 hmax
  have hj : j = cap.length := by
    have hl := congrArg List.length hj3
    simp only [List.length_take, List.length_append, List.length_cons] at hl
    omega
  subst hj
  intro c hc hcq
  subst hcq
  obtain ⟨t, ht⟩ := List.mem_iff_get?.mp hc
  have htlt : t < (post.takeWhile dotMatches).length := by
    rcases Nat.lt_or_ge t (post.takeWhile dotMatches).length with hlt | hge
    · exact hlt
    · rw [List.get?_eq_getElem?, List.getElem?_eq_none hge] at ht
      cases ht
  have hpost := get_of_takeWhile dotMatches post t '"' ht
  exact hmax (cap.length + 1 + t) (by omega) (by omega)
    ((get_after_quote cap post t).trans hpost)

theorem matchAt_greedy (cap post : QString) (h2 : cap ≠ []) (h3 : ∀ c ∈ cap, c ≠ '\n')
    (h4 : ∀ c ∈ post.takeWhile dotMatches, c ≠ '"') :
    matchAt (versionLiteral ++ cap ++ '"' :: post) = some cap := by
  unfold matchAt
  rw [List.append_assoc, matchLiteral_append]
  exact matchGroup_greedy cap post h2 h3 h4

theorem matchAt_sound_greedy (s cap : QString) (h : matchAt s = some cap) :
    ∃ post, s = versionLiteral ++ cap ++ '"' :: post ∧ cap ≠ [] ∧ (∀ c ∈ cap, c ≠ '\n') ∧
      ∀ c ∈ post.takeWhile dotMatches, c ≠ '"' := by
  unfold matchAt at h
  cases hl : matchLiteral versionLiteral s with
  | none => simp [hl] at h
  | some rest =>
    simp only [hl, Option.some_bind] at h
    obtain ⟨post, h1, h2, h3, h4⟩ := matchGroup_sound_greedy rest cap h
    refine ⟨post, ?_, h2, h3, h4⟩
    rw [matchLiteral_sound _ _ _ hl, h1]
    simp

theorem matchAt_none_of_not_matches (s : QString) (h : ¬ MatchesAtStart s) :
    matchAt s = none := by
  cases hm : matchAt s with
  | none => rfl
  | some cap =>
    obtain ⟨post, h1, h2, h3⟩ := matchAt_sound s cap hm
    exact absurd ⟨cap, post, h1, h2, h3⟩ h

theorem not_matches_of_matchAt_none (s : QString) (h : matchAt s = none) :
    ¬ MatchesAtStart s := by
  rintro ⟨cap, post, h1, h2, h3⟩
  obtain ⟨cap0, hc⟩ := matchAt_complete cap post h2 h3
  rw [← h1, h] at hc
  cases hc

theorem regexMatch_leftmost (s cap : QString) (h : IsLeftmostGreedy s cap) :
    regexMatch s = some cap := by
  obtain ⟨pre, post, h1, h2, h3, h4, h5⟩ := h
  induction pre generalizing s with
  | nil =>
    have hm := matchAt_greedy cap post h2 h3 h4
    have hne : s = 'v' :: ("ersion \"".toList ++ cap ++ '"' :: post) := by
      rw [h1]
      simp [versionLiteral]
    have hs : matchAt s = some cap := by
      rw [h1]
      simpa using hm
    rw [hne, regexMatch, ← hne, hs]
  | cons c pre ih =>
    have hnone : matchAt s = none :=
      matchAt_none_of_not_matches s (h5 [] s (by simp) (by simp))
    have hs : s = c :: (pre ++ versionLiteral ++ cap ++ '"' :: post) := by
      rw [h1]
      simp
    have htail := ih (pre ++ versionLiteral ++ cap ++ '"' :: post) rfl (by
      intro pre' rest hsplit hlt
      exact h5 (c :: pre') rest (by rw [hs, hsplit]; simp) (by simpa using hlt))
    rw [hs, regexMatch, ← hs, hnone]
    exact htail

theorem regexMatch_sound_greedy (s cap : QString) (h : regexMatch s = some cap) :
    IsLeftmostGreedy s cap := by
  induction s with
  | nil =>
    simp only [regexMatch] at h
    obtain ⟨post, h1, h2, h3, h4⟩ := matchAt_sound_greedy [] cap h
    exact ⟨[], post, by simp at h1, h2, h3, h4, fun pre' rest _ hlt => by simp at hlt⟩
  | cons c cs ih =>
    simp only [regexMatch] at h
    cases hm : matchAt (c :: cs) with
    | some cap0 =>
      simp only [hm] at h
      cases h
      obtain ⟨post, h1, h2, h3, h4⟩ := matchAt_sound_greedy (c :: cs) _ hm
      exact ⟨[], post, by simpa using h1, h2, h3, h4, fun pre' rest _ hlt => by simp at hlt⟩
    | none =>
      simp only [hm] at h
      obtain ⟨pre, post, h1, h2, h3, h4, h5⟩ := ih h
      refine ⟨c :: pre, post, by simp [h1], h2, h3, h4, ?_⟩
      intro pre' rest hsplit hlt
      cases pre' with
      | nil =>
        simp only [List.nil_append] at hsplit
        rw [← hsplit]
        exact not_matches_of_matchAt_none _ hm
      | cons x p =>
        simp only [List.cons_append, List.cons.injEq] at hsplit
        exact h5 p rest hsplit.2 (by simpa using hlt)

/-- Claim C12: when the run of `java -version` succeeds and the output matches,
`Java::version` returns capture group 1 of the leftmost match of
`version "(.+)"`, taken greedily: the text that starts just after the first
`version "` at which the pattern can be matched and ends just before the last
`"` of that line; such a text exists whenever the output matches.  For the
output `java version "1.8.0_181"` the result is `1.8.0_181`.  The result is
not empty exactly when a match exists, and it never contains a line break. -/
theorem version_leftmost_greedy (result : Result) (hs : result.success = true) :
    (∀ cap, IsLeftmostGreedy result.value cap → version result = cap) ∧
    (HasVersionMatch result.value →
      ∃ cap, IsLeftmostGreedy result.value cap ∧ version result = cap) ∧
    (version result ≠ [] ↔ HasVersionMatch result.value) ∧
    (∀ c ∈ version result, c ≠ '\n') ∧
    version ⟨true, "java version \"1.8.0_181\"".toList⟩ = "1.8.0_181".toList := by
  have hv : version result = captured1 (regexMatch result.value) := by
    simp [version, hs]
  refine ⟨?_, ?_, ?_, ?_, by decide⟩
  · intro cap hcap
    rw [hv, regexMatch_leftmost _ _ hcap]
    rfl
  · intro hmatch
    obtain ⟨cap, hc⟩ := regexMatch_complete _ hmatch
    exact ⟨cap, regexMatch_sound_greedy _ _ hc, by rw [hv, hc]; rfl⟩
  · constructor
    · intro hne
      cases hm : regexMatch result.value with
      | none =>
        rw [hv, hm] at hne
        exact absurd rfl hne
      | some cap =>
        obtain ⟨pre, post, h1, h2, h3⟩ := regexMatch_sound _ _ hm
        exact ⟨pre, cap, post, h1, h2, h3⟩
    · intro hmatch
      obtain ⟨cap, hc⟩ := regexMatch_complete _ hmatch
      obtain ⟨pre, post, h1, h2, h3⟩ := regexMatch_sound _ _ hc
      rw [hv, hc]
      exact h2
  · intro c hc
    cases hm : regexMatch result.value with
    | none =>
      rw [hv, hm] at hc
      simp [captured1] at hc
    | some cap =>
      obtain ⟨pre, post, h1, h2, h3⟩ := regexMatch_sound _ _ hm
      rw [hv, hm] at hc
      exact h3 c hc

theorem version_leftmost_greedy_witness :
    (Result.mk true "openjdk version \"11\" 2018 \"LTS\"\nversion \"x\"".toList).success = true ∧
    version (Result.mk true "openjdk version \"11\" 2018 \"LTS\"\nversion \"x\"".toList) =
      "11\" 2018 \"LTS".toList ∧
    HasVersionMatch
      (Result.mk true "openjdk version \"11\" 2018 \"LTS\"\nversion \"x\"".toList).value := by
  have hv : version (Result.mk true
      "openjdk version \"11\" 2018 \"LTS\"\nversion \"x\"".toList) =
      "11\" 2018 \"LTS".toList := by decide
  refine ⟨rfl, hv, ?_⟩
  apply (version_leftmost_greedy _ rfl).2.2.1.mp
  rw [hv]
  decide

end Java

/-! ## Theorems: the toolbar lists of the options dialog -/

namespace OptionsDialog

end OptionsDialog

/-! ## Theorems: the resource directories read by the constructor of the titles model -/

namespace TitleItemsModel

end TitleItemsModel

/-! ## Theorems: the actions and the title of the main window -/

namespace MainWindow

/-- Claim C15: `setActionsEnabled` without a project disables the six actions;
with a project it enables Save, Install, Explore, Close and the title editor
exactly when the state of the project allows saving, installing, exploring,
closing and editing, and it enables the project manager.  The function
`updateWindowForProject` gives the same enabling; besides it sets the title of
the window, and the modified flag to `isModified()` of the state for a project
and to false without one. -/
theorem setActionsEnabled_flags (ui : WindowUi) (p : OpenProject) :
    ((setActionsEnabled ui none).actionApkSave.enabled = false
      ∧ (setActionsEnabled ui none).actionApkInstall.enabled = false
      ∧ (setActionsEnabled ui none).actionApkExplore.enabled = false
      ∧ (setActionsEnabled ui none).actionApkClose.enabled = false
      ∧ (setActionsEnabled ui none).actionTitleEditor.enabled = false
      ∧ (setActionsEnabled ui none).actionProjectManager.enabled = false)
    ∧ ((setActionsEnabled ui (some p)).actionApkSave.enabled = p.state.canSave
      ∧ (setActionsEnabled ui (some p)).actionApkInstall.enabled = p.state.canInstall
      ∧ (setActionsEnabled ui (some p)).actionApkExplore.enabled = p.state.canExplore
      ∧ (setActionsEnabled ui (some p)).actionApkClose.enabled = p.state.canClose
      ∧ (setActionsEnabled ui (some p)).actionTitleEditor.enabled = p.state.canEdit
      ∧ (setActionsEnabled ui (some p)).actionProjectManager.enabled = true)
    ∧ updateWindowForProject ui none =
        { setActionsEnabled ui none with windowTitle := [], windowModified := false }
    ∧ updateWindowForProject ui (some p) =
        { setActionsEnabled ui (some p) with
          windowTitle := p.originalPath ++ " [*]".toList
          windowModified := p.state.isModified }
    ∧ (updateWindowForProject ui none).windowModified = false
    ∧ (updateWindowForProject ui (some p)).windowModified = p.state.isModified := by
  refine ⟨⟨rfl, rfl, rfl, rfl, rfl, rfl⟩, ⟨rfl, rfl, rfl, rfl, rfl, rfl⟩, rfl, rfl, rfl, rfl⟩

end MainWindow

/-! ## Theorems: the indices of the titles model -/

namespace TitleItemsModel

/-- The index that `index` creates for an invalid parent is valid exactly when
row and column are not negative. -/
theorem index_isValid (m : TitleItemsModel) (row column : Int) (parent : QModelIndex)
    (hparent : parent.isValid = false) :
    (index m row column parent).isValid = true ↔ 0 ≤ row ∧ 0 ≤ column := by
  unfold index
  rw [if_neg (by simp [hparent])]
  simp [QModelIndex.isValid]

/-- Reading row `row` of the list, for a row that is not negative, succeeds
exactly when the row is below the number of rows. -/
theorem get?_toNat_ne_none (m : TitleItemsModel) (row : Int) (hrow : 0 ≤ row) :
    m.nodes.get? row.toNat ≠ none ↔ row < rowCount m := by
  rw [Ne, List.get?_eq_none, not_le, rowCount]
  omega

/-- With a valid index, `data` has a defined outcome exactly when the row of
the index is below the number of rows. -/
theorem data_defined_iff (env : Platform) (m : TitleItemsModel) (i : QModelIndex)
    (role : Int) (hvalid : i.isValid = true) :
    data env m i role ≠ none ↔ i.row < rowCount m := by
  have hrow : 0 ≤ i.row := by
    simp [QModelIndex.isValid] at hvalid
    exact hvalid.1.1
  rw [← get?_toNat_ne_none m i.row hrow]
  unfold data
  rw [if_pos hvalid]
  cases h : m.nodes.get? i.row.toNat with
  | none => simp
  | some title =>
    simp only [ne_eq, not_false_eq_true, iff_true]
    split_ifs <;> simp

/-- With a valid index and the edit role, `setData` has a defined outcome
exactly when the row of the index is below the number of rows. -/
theorem setData_defined_iff (m : TitleItemsModel) (i : QModelIndex) (value : QVariant)
    (hvalid : i.isValid = true) :
    setData m i value EditRole ≠ none ↔ i.row < rowCount m := by
  have hrow : 0 ≤ i.row := by
    simp [QModelIndex.isValid] at hvalid
    exact hvalid.1.1
  rw [← get?_toNat_ne_none m i.row hrow]
  unfold setData
  rw [if_pos ⟨hvalid, rfl⟩]
  dsimp only
  cases h : m.nodes.get? i.row.toNat with
  | none => simp
  | some title =>
    simp only [ne_eq, not_false_eq_true, iff_true]
    split_ifs <;> simp

/-- Claim C16 (as amended): for an invalid parent, the index returned by
`index(row, column)` is valid exactly when row and column are not negative,
whatever `rowCount()` and `columnCount()` are; for such a valid index `data`,
and `setData` with the edit role, read the node list in range exactly when
`row < rowCount()`, and `setData` with another role reads nothing.  With a
valid parent `index` returns an invalid index. -/
theorem index_valid_iff (env : Platform) (m : TitleItemsModel) (row column : Int)
    (parent : QModelIndex) (value : QVariant) (role : Int)
    (hparent : parent.isValid = false) :
    ((index m row column parent).isValid = true ↔ 0 ≤ row ∧ 0 ≤ column)
    ∧ ((index m row column parent).isValid = true →
        (data env m (index m row column parent) role ≠ none ↔ row < rowCount m)
        ∧ (setData m (index m row column parent) value EditRole ≠ none ↔ row < rowCount m)
        ∧ (role ≠ EditRole →
            setData m (index m row column parent) value role = some (false, m)))
    ∧ (∀ validParent : QModelIndex, validParent.isValid = true →
        (index m row column validParent).isValid = false) := by
  have hrowEq : (index m row column parent).row = row := by
    unfold index
    rw [if_neg (by simp [hparent])]
  refine ⟨index_isValid m row column parent hparent, ?_, ?_⟩
  · intro hvalid
    refine ⟨?_, ?_, ?_⟩
    · rw [data_defined_iff env m _ role hvalid, hrowEq]
    · rw [setData_defined_iff m _ value hvalid, hrowEq]
    · intro hrole
      unfold setData
      rw [if_neg (fun h => hrole h.2)]
  · intro validParent hvalidParent
    unfold index
    rw [if_pos hvalidParent]
    rfl

theorem index_valid_iff_witness :
    QModelIndex.null.isValid = false
    ∧ (index exampleModel 1 ResourcePath QModelIndex.null).isValid = true
    ∧ (1 : Int) < rowCount exampleModel
    ∧ data examplePlatform exampleModel (index exampleModel 1 ResourcePath QModelIndex.null)
        DisplayRole ≠ none
    ∧ setData exampleModel (index exampleModel 1 ResourcePath QModelIndex.null)
        (.string "Renamed".toList) EditRole ≠ none := by
  have hparent : QModelIndex.null.isValid = false := by decide
  have hlt : (1 : Int) < rowCount exampleModel := by decide
  obtain ⟨hiff, hread, _⟩ :=
    index_valid_iff examplePlatform exampleModel 1 ResourcePath QModelIndex.null
      (.string "Renamed".toList) DisplayRole hparent
  have hvalid : (index exampleModel 1 ResourcePath QModelIndex.null).isValid = true :=
    hiff.2 ⟨by decide, by decide⟩
  obtain ⟨hdata, hset, _⟩ := hread hvalid
  exact ⟨hparent, hvalid, hlt, hdata.2 hlt, hset.2 hlt⟩

/-- Counterexample to claim C16 as stated: in a model with two rows and four
columns, `index(5, 0)` and `index(0, 7)` with an invalid parent are valid
indices, although row 5 is not below `rowCount()` and column 7 is not below
`columnCount()`; with the index `index(5, 0)` both `data` and `setData` read
the node list out of range. -/
theorem index_valid_out_of_range :
    rowCount exampleModel = 2 ∧ columnCount exampleModel = 4
    ∧ QModelIndex.null.isValid = false
    ∧ (index exampleModel 5 0 QModelIndex.null).isValid = true
    ∧ (index exampleModel 0 7 QModelIndex.null).isValid = true
    ∧ data examplePlatform exampleModel (index exampleModel 5 0 QModelIndex.null)
        DisplayRole = none
    ∧ (setData exampleModel (index exampleModel 5 0 QModelIndex.null)
        (.string "Renamed".toList) EditRole).isNone = true
    ∧ ¬ (∀ row column : Int, (index exampleModel row column QModelIndex.null).isValid = true →
          0 ≤ row ∧ row < rowCount exampleModel
            ∧ 0 ≤ column ∧ column < columnCount exampleModel) := by
  refine ⟨by decide, by decide, by decide, by decide, by decide, by decide, by decide, ?_⟩
  intro h
  have h5 := (h 5 0 (by decide)).2.1
  revert h5
  decide

end TitleItemsModel

/-! ## Theorems: `TitleItemsModel::save` -/

namespace TitleItemsModel

/-- The loop of `save`, started with some calls already made, appends one call
for every title, in the order of the list. -/
theorem save_loop (saveTitle : TitleNode → Bool) (titles : List TitleNode) :
    ∀ calls : List (TitleNode × Bool),
      titles.foldl (fun calls title => calls ++ [(title, saveTitle title)]) calls =
        calls ++ titles.map (fun title => (title, saveTitle title)) := by
  induction titles with
  | nil => intro calls; simp
  | cons title rest ih =>
    intro calls
    rw [List.foldl_cons, ih, List.map_cons, List.append_assoc, List.singleton_append]

/-- Claim C17: `TitleItemsModel::save` calls `save` on every title row once, in
row order, leaves the model as it is, and returns true, whatever the calls on
the titles give: also for the model without rows, where no call is made, and
when no call on a title succeeds. -/
theorem save_calls (saveTitle : TitleNode → Bool) (m : TitleItemsModel) :
    (save saveTitle m).result = true
    ∧ (save saveTitle m).calls = m.nodes.map (fun title => (title, saveTitle title))
    ∧ (save saveTitle m).calls.map Prod.fst = m.nodes
    ∧ (save saveTitle m).calls.length = m.nodes.length
    ∧ (save saveTitle m).model.nodes = m.nodes
    ∧ (save saveTitle m).model.trace = m.trace
    ∧ (save saveTitle ⟨[], m.trace⟩).result = true
    ∧ (save saveTitle ⟨[], m.trace⟩).calls = []
    ∧ (save (fun _ => false) m).result = true
    ∧ (save (fun _ => false) m).calls = m.nodes.map (fun title => (title, false)) := by
  have hcalls : ∀ f : TitleNode → Bool,
      (save f m).calls = m.nodes.map (fun title => (title, f title)) := by
    intro f
    unfold save
    simp only [save_loop, List.nil_append]
  refine ⟨rfl, hcalls saveTitle, ?_, ?_, rfl, rfl, rfl, rfl, rfl, hcalls _⟩
  · rw [hcalls, List.map_map]
    exact List.map_id _
  · rw [hcalls, List.length_map]

/-- On the sample model `save` calls the two rows in order and returns true,
although neither call succeeds. -/
theorem save_exampleModel :
    (save (fun _ => false) exampleModel).result = true
    ∧ (save (fun _ => false) exampleModel).calls.map
        (fun call => (call.1.node.getValue, call.1.file.getFilePath, call.2)) =
      [("My App".toList, "/c/res/values/strings.xml".toList, false),
       ("Second".toList, "/c/res/values/strings.xml".toList, false)] := by
  decide

end TitleItemsModel

/-! ## Theorems: the menu of recent files -/

namespace MainWindow

/-- The loop of `updateRecentMenu` appends one action for every recent entry,
in the order of the list. -/
theorem addRecentActions_eq (recentList : List RecentFile) :
    ∀ menu : List MenuEntry,
      addRecentActions recentList menu =
        menu ++ recentList.map (fun recentEntry =>
          MenuEntry.fileAction (WindowAction.new recentEntry.thumbnail recentEntry.filename)
            recentEntry.filename) := by
  induction recentList with
  | nil => intro menu; simp [addRecentActions]
  | cons recentEntry rest ih =>
    intro menu
    rw [addRecentActions, ih, List.map_cons, List.append_assoc, List.singleton_append]

/-- Claim C18: after `updateRecentMenu`, whatever the menu held before, the
menu of recent files holds one action for every recent entry, in the order of
the list and with the file name of the entry as its text, then one separator,
then one last action: the action `actionRecentNone` when the list is empty and
the action `actionRecentClear` when it is not; these are `n + 2` entries for
`n` recent files.  The function leaves the two member actions as they are, and
after `initMenus` and `retranslate` the first is disabled with the text
"No Recent Files" and the second is enabled with the text "&Clear List". -/
theorem updateRecentMenu_entries (icons : QString → QIcon) (tr : QString → QString)
    (ui : WindowUi) (recentList : List RecentFile) :
    (updateRecentMenu ui recentList).menuRecent =
        recentList.map (fun recentEntry =>
          MenuEntry.fileAction (WindowAction.new recentEntry.thumbnail recentEntry.filename)
            recentEntry.filename)
          ++ [MenuEntry.separator,
              if recentList.isEmpty then MenuEntry.recentNone else MenuEntry.recentClear]
    ∧ (∀ recentEntry : RecentFile,
        (WindowAction.new recentEntry.thumbnail recentEntry.filename).text =
          recentEntry.filename)
    ∧ (updateRecentMenu ui recentList).menuRecent.length = recentList.length + 2
    ∧ (updateRecentMenu ui []).menuRecent = [MenuEntry.separator, MenuEntry.recentNone]
    ∧ (∀ (recentEntry : RecentFile) (rest : List RecentFile),
        (updateRecentMenu ui (recentEntry :: rest)).menuRecent.getLast? =
          some MenuEntry.recentClear)
    ∧ (updateRecentMenu ui recentList).actionRecentNone = ui.actionRecentNone
    ∧ (updateRecentMenu ui recentList).actionRecentClear = ui.actionRecentClear
    ∧ (retranslateRecentMenu tr (initRecentMenu icons ui)).actionRecentNone =
        ⟨[], tr "No Recent Files".toList, false⟩
    ∧ (retranslateRecentMenu tr (initRecentMenu icons ui)).actionRecentClear =
        ⟨icons "close.png".toList, tr "&Clear List".toList, true⟩ := by
  have hmenu : ∀ l : List RecentFile, (updateRecentMenu ui l).menuRecent =
      l.map (fun recentEntry =>
          MenuEntry.fileAction (WindowAction.new recentEntry.thumbnail recentEntry.filename)
            recentEntry.filename)
        ++ [MenuEntry.separator,
            if l.isEmpty then MenuEntry.recentNone else MenuEntry.recentClear] := by
    intro l
    unfold updateRecentMenu
    simp only [addRecentActions_eq, List.nil_append, List.append_assoc, List.singleton_append]
  refine ⟨hmenu recentList, fun _ => rfl, ?_, rfl, ?_, rfl, rfl, rfl, rfl⟩
  · rw [hmenu, List.length_append, List.length_map]
    rfl
  · intro recentEntry rest
    rw [hmenu, List.isEmpty_cons, if_neg (by decide)]
    have hsplit : ∀ front : List MenuEntry,
        front ++ [MenuEntry.separator, MenuEntry.recentClear] =
          (front ++ [MenuEntry.separator]) ++ [MenuEntry.recentClear] := by
      intro front
      rw [List.append_assoc]
      rfl
    rw [hsplit, List.getLast?_append]
    rfl

/-- On a sample window whose menu held three entries, two recent files give
two file actions, a separator and the action that clears the list. -/
theorem updateRecentMenu_exampleUi :
    (updateRecentMenu exampleUi
        [⟨"/home/user/a.apk".toList, "a.png".toList⟩,
         ⟨"/home/user/b.apk".toList, "b.png".toList⟩]).menuRecent =
      [MenuEntry.fileAction ⟨"a.png".toList, "/home/user/a.apk".toList, true⟩
          "/home/user/a.apk".toList,
       MenuEntry.fileAction ⟨"b.png".toList, "/home/user/b.apk".toList, true⟩
          "/home/user/b.apk".toList,
       MenuEntry.separator, MenuEntry.recentClear]
    ∧ (updateRecentMenu exampleUi []).menuRecent = [MenuEntry.separator, MenuEntry.recentNone] := by
  decide

end MainWindow

end ApkEditorStudio
